import Mathlib

/-!
Verification of the translation-consistency core of the i18nspector fork
(WML-variable format-string checking, Plural-Forms analysis, message-flag
resolution).  Strings are modelled as `List Char`; Python sets as
deduplicated lists; findings (diagnostic tags) as inductive values carrying
the same evidentiary arguments the code attaches to each tag.
-/

namespace I18nspector

/-! ### String ordering (Python `sorted` on `str`)

Python compares strings lexicographically by code point.  `strLe` is the
corresponding decidable total order on `List Char`. -/
def strLe : List Char → List Char → Bool
  | [], _ => true
  | _ :: _, [] => false
  | a :: as, b :: bs => if a = b then strLe as bs else decide (a.toNat < b.toNat)

/-- The `Prop`-valued order used with `List.insertionSort`. -/
def StrLeP (a b : List Char) : Prop := strLe a b = true

instance : DecidableRel StrLeP := fun a b => decEq (strLe a b) true

/-- Python `sorted()` on a collection of strings. -/
def pySorted (l : List (List Char)) : List (List Char) := List.insertionSort StrLeP l

/-- The ASCII fragment of Python's `\w` class: `[A-Za-z0-9_]`. -/
def asciiWordChar (c : Char) : Bool :=
  ('A' ≤ c && c ≤ 'Z') || ('a' ≤ c && c ≤ 'z') || ('0' ≤ c && c ≤ '9') || c = '_'

namespace Wmlvar

/-! ### `lib/strformat/wmlvar.py` — WML variable substitutions

The placeholder pattern is `\$(?P<name>[\w][\.\w]+)` (verbose mode).  The
`\w` class of Python's Unicode-aware regexes is kept abstract as a
parameter `w : Char → Bool`; theorems that depend on its concrete values
constrain it on the ASCII range only. -/
def wdot (w : Char → Bool) (c : Char) : Bool := w c || c = '.'

/-- One match attempt of `[\w][\.\w]+` at the head of `l` (the text just
after a `$`): the name is the first character (which must be `\w`) followed
by the maximal nonempty run of `[\.\w]` characters.  Returns the name and
the remaining text. -/
def takeName (w : Char → Bool) : List Char → Option (List Char × List Char)
  | [] => none
  | c :: cs =>
    if w c then
      if (cs.takeWhile (wdot w)).isEmpty then none
      else some (c :: cs.takeWhile (wdot w), cs.dropWhile (wdot w))
    else none

/-- The scanning loop of `re.finditer` over the placeholder pattern:
at each position, either a match starts (and scanning resumes after it) or
the character is literal text.  Structural recursion on a fuel bound (one
unit per scanned position; `scanNames` supplies `l.length`, which
dominates the number of steps since every step consumes at least one
character). -/
def scanGo (w : Char → Bool) : Nat → List Char → List (List Char)
  | 0, _ => []
  | _, [] => []
  | fuel + 1, c :: rest =>
    if c = '$' then
      match takeName w rest with
      | some (nm, rest2) => nm :: scanGo w fuel rest2
      | none => scanGo w fuel rest
    else scanGo w fuel rest

/-- All matched names of the placeholder pattern in `l`, in order. -/
def scanNames (w : Char → Bool) (l : List Char) : List (List Char) :=
  scanGo w l.length l

/-- `FormatString.__init__`: collects each match (`_items`) and the set of
argument names (`arguments`, a Python `frozenset`, modelled as a
deduplicated list). -/
structure FormatString where
  items : List (List Char)
  arguments : List (List Char)

def FormatString.ofString (w : Char → Bool) (s : List Char) : FormatString :=
  let names := scanNames w s
  ⟨names.map (fun nm => '$' :: nm), names.dedup⟩

/-! #### Declarative characterization of the placeholder matches -/
/-- The shape `[\w][\.\w]+` of a matched name: a word character followed by
at least one word-or-dot character. -/
def nameShape (w : Char → Bool) : List Char → Bool
  | [] => false
  | c :: cs => w c && !cs.isEmpty && cs.all (wdot w)

/-- `placeholderAt w l i name`: position `i` of `l` holds a `$` followed
immediately by `name`, where `name` has the shape `[\w][\.\w]+` and is
maximal (the next character, if any, is not a word-or-dot character). -/
def placeholderAt (w : Char → Bool) (l : List Char) (i : Nat) (name : List Char) : Bool :=
  match l.drop i with
  | [] => false
  | c :: rest =>
    decide (c = '$') && nameShape w name && decide (rest.take name.length = name) &&
    (match rest.drop name.length with
     | [] => true
     | d :: _ => !(wdot w d))

end Wmlvar

namespace WmlCheck

open Wmlvar

/-! ### `lib/check/msgformat/wmlvar.py` — `Checker.check_args` -/
/-- The tags reported by `check_args`, with their evidentiary arguments
(the argument name and the two locations). -/
inductive WmlArgFinding
  | unknownVariable (key : List Char) (dstLoc srcLoc : List Char)
  | missingArgument (key : List Char) (dstLoc srcLoc : List Char)
deriving DecidableEq

/-- `Checker.check_args(message, src_loc, src_fmt, dst_loc, dst_fmt, *,
omitted_int_conv_ok=False)`: reports one `unknown-variable` tag per
identifier in `dst_fmt.arguments - src_fmt.arguments` (sorted) and one
`missing-argument` tag per identifier in the opposite difference (sorted),
the latter suppressed entirely when exactly one identifier is missing and
`omitted_int_conv_ok` is set. -/
def check_args (srcLoc : List Char) (srcFmt : FormatString) (dstLoc : List Char)
    (dstFmt : FormatString) (omitted_int_conv_ok : Bool) : List WmlArgFinding :=
  let src_args := srcFmt.arguments
  let dst_args := dstFmt.arguments
  let unknownKeys := pySorted (dst_args.filter (fun k => decide (k ∉ src_args)))
  let missingKeys0 := src_args.filter (fun k => decide (k ∉ dst_args))
  let missingKeys :=
    if missingKeys0.length = 1 ∧ omitted_int_conv_ok = true then ([] : List (List Char))
    else pySorted missingKeys0
  unknownKeys.map (fun k => .unknownVariable k dstLoc srcLoc)
    ++ missingKeys.map (fun k => .missingArgument k dstLoc srcLoc)

end WmlCheck

namespace Gettext

/-! ### `lib/gettext.py` — Plural-Forms declaration parsing -/
/-- Python `\s` (ASCII range): `[ \t\n\r\f\v]`. -/
def pySpace (c : Char) : Bool :=
  c = ' ' || c = '\t' || c = '\n' || c = '\r' || c = '\x0b' || c = '\x0c'

def isDigitChar (c : Char) : Bool := '0' ≤ c && c ≤ '9'

/-- `int(s, 10)` on a digit string. -/
def natOfDigits (l : List Char) : Nat :=
  l.foldl (fun acc c => 10 * acc + (c.toNat - '0'.toNat)) 0

/-- The anchored match of the regex
`^\s*nplurals=([1-9][0-9]*);\s*plural=([^;]+);?\s*$`
(`_parse_plural_forms`), returning the two captured groups.  The only
backtracking the pattern admits collapses: each `\s*`/digit run is
followed by a literal outside its class, and `([^;]+)` is cut at the first
`;` (or takes the whole remainder when there is none), with the optional
`;` and trailing whitespace checked afterwards. -/
def matchPluralForms (s : List Char) : Option (List Char × List Char) :=
  if ("nplurals=".toList).isPrefixOf (s.dropWhile pySpace) then
    match (s.dropWhile pySpace).drop 9 with
    | [] => none
    | d :: rest =>
      if '1' ≤ d && d ≤ '9' then
        match rest.dropWhile isDigitChar with
        | ';' :: s4 =>
          if ("plural=".toList).isPrefixOf (s4.dropWhile pySpace) then
            if (((s4.dropWhile pySpace).drop 7).takeWhile
                (fun c => !decide (c = ';'))).isEmpty then none
            else
              match ((s4.dropWhile pySpace).drop 7).dropWhile
                  (fun c => !decide (c = ';')) with
              | [] => some (d :: rest.takeWhile isDigitChar,
                  ((s4.dropWhile pySpace).drop 7).takeWhile (fun c => !decide (c = ';')))
              | ';' :: tail2 =>
                if tail2.all pySpace then
                  some (d :: rest.takeWhile isDigitChar,
                    ((s4.dropWhile pySpace).drop 7).takeWhile (fun c => !decide (c = ';')))
                else none
              | _ => none
          else none
        | _ => none
      else none
  else none

/-- Declarative reading of the same pattern: the string decomposes into
whitespace, the `nplurals=` literal, a nonzero-led digit group, `;`,
whitespace, the `plural=` literal, a nonempty semicolon-free body, an
optional `;`, and trailing whitespace. -/
def MatchesPluralForms (s : List Char) : Prop :=
  ∃ w1 d ds w2 body semi w3,
    s = w1 ++ "nplurals=".toList ++ (d :: ds) ++ [';'] ++ w2
        ++ "plural=".toList ++ body ++ semi ++ w3
    ∧ (∀ c ∈ w1, pySpace c = true)
    ∧ ('1' ≤ d ∧ d ≤ '9')
    ∧ (∀ c ∈ ds, isDigitChar c = true)
    ∧ (∀ c ∈ w2, pySpace c = true)
    ∧ body ≠ [] ∧ (∀ c ∈ body, ¬c = ';')
    ∧ (semi = [] ∨ semi = [';'])
    ∧ (∀ c ∈ w3, pySpace c = true)

/-- `parse_plural_forms(s)` over an abstract expression parser `ppe`
standing for `parse_plural_expression`; `none` models raising
`PluralFormsSyntaxError` (of which `PluralExpressionSyntaxError` is a
subclass). -/
def parse_plural_forms {E : Type} (ppe : List Char → Option E) (s : List Char) :
    Option (Nat × E) :=
  match matchPluralForms s with
  | none => none
  | some (g1, g2) =>
    match ppe g2 with
    | none => none
    | some e => some (natOfDigits g1, e)

/-! #### `_plural_exp_tokenize` — the plural-expression tokenizer

`finditer` over the alternation in `_plural_exp_tokens`, in order: digit
runs, `[=!]=`, `!`→` not `, `&&`→` and `, `||`→` or `, `[<>]=?`, `[*/%]`,
`[+-]`, `n`, `[?:]`, `[()]`, `[ \t]`, and any other character is junk and
raises `PluralExpressionSyntaxError` (modelled as `none`).  Structural
recursion on a fuel bound (each step consumes at least one character). -/
def pluralExpTokenize : Nat → List Char → Option (List (List Char))
  | 0, _ => none
  | _, [] => some []
  | fuel + 1, c :: cs =>
    if isDigitChar c then
      (pluralExpTokenize fuel ((c :: cs).dropWhile isDigitChar)).map
        ((c :: cs).takeWhile isDigitChar :: ·)
    else if (c = '=' || c = '!') && cs.head? = some '=' then
      (pluralExpTokenize fuel cs.tail).map ([c, '='] :: ·)
    else if c = '!' then
      (pluralExpTokenize fuel cs).map (" not ".toList :: ·)
    else if c = '&' && cs.head? = some '&' then
      (pluralExpTokenize fuel cs.tail).map (" and ".toList :: ·)
    else if c = '|' && cs.head? = some '|' then
      (pluralExpTokenize fuel cs.tail).map (" or ".toList :: ·)
    else if c = '<' || c = '>' then
      if cs.head? = some '=' then
        (pluralExpTokenize fuel cs.tail).map ([c, '='] :: ·)
      else
        (pluralExpTokenize fuel cs).map ([c] :: ·)
    else if c = '*' || c = '/' || c = '%' then
      (pluralExpTokenize fuel cs).map ([c] :: ·)
    else if c = '+' || c = '-' then
      (pluralExpTokenize fuel cs).map ([c] :: ·)
    else if c = 'n' then
      (pluralExpTokenize fuel cs).map ([c] :: ·)
    else if c = '?' || c = ':' then
      (pluralExpTokenize fuel cs).map ([c] :: ·)
    else if c = '(' || c = ')' then
      (pluralExpTokenize fuel cs).map ([c] :: ·)
    else if c = ' ' || c = '\t' then
      (pluralExpTokenize fuel cs).map ([c] :: ·)
    else none

/-! #### `_subst_ifelse` — the recursive ternary-to-conditional rewrite

`re.sub(r'(.*?)[?](.*?):(.*)', f)` matches lazily: the condition runs to
the first `?` that is followed (anywhere) by a `:`, the true-branch to the
first `:` after that `?`, and the false-branch (rewritten recursively)
takes the rest of the string.  A string with no such match is returned
unchanged. -/
def findIfelseSplit (s : List Char) : Option (List Char × List Char × List Char) :=
  match s.dropWhile (fun c => !decide (c = '?')) with
  | '?' :: r2 =>
    match r2.dropWhile (fun c => !decide (c = ':')) with
    | ':' :: r4 => some (s.takeWhile (fun c => !decide (c = '?')),
        r2.takeWhile (fun c => !decide (c = ':')), r4)
    | _ => none
  | _ => none

def substGo : Nat → List Char → List Char
  | 0, s => s
  | fuel + 1, s =>
    match findIfelseSplit s with
    | none => s
    | some (a, b, r) =>
      '(' :: (b ++ (" if ".toList ++ (a ++ (" else ".toList
        ++ (substGo fuel r ++ [')'])))))

def substIfelse (s : List Char) : List Char := substGo s.length s

/-! #### `parse_plural_expression` — the bracket-matching stack -/
/-- The token-consuming loop of `parse_plural_expression`: `(` pushes an
empty accumulator, `)` pops the top, rewrites its ternaries and wraps it
in parentheses onto the parent (raising when the stack would underflow),
any other token is appended to the top; at the end exactly one stack entry
must remain, whose rewrite is handed to the expression builder. -/
def ppeLoop : List (List Char) → List (List Char) → Option (List Char)
  | [], stack =>
    match stack with
    | [s] => some (substIfelse s)
    | _ => none
  | tok :: toks, stack =>
    if tok = ['('] then ppeLoop toks ([] :: stack)
    else if tok = [')'] then
      match stack with
      | top :: parent :: rest =>
        ppeLoop toks ((parent ++ ('(' :: (substIfelse top ++ [')']))) :: rest)
      | _ => none
    else
      match stack with
      | top :: rest => ppeLoop toks ((top ++ tok) :: rest)
      | [] => none

/-! #### The expression engine

Modelled from the spec: `lib/intexpr.py` is absent from `src/` (only its
callers are present).  Section 3 and §4.1 of the spec describe
`Expression` as an immutable syntax tree over the variable `n` and integer
literals with operators `+ - * / % == != < <= > >= && || ! ?:`, evaluated
deterministically with boolean sub-results coerced to `0`/`1` and
`ArithmeticError` variants `Overflow` (result outside the representable
integer range, taken as signed 64-bit) and `DivisionByZero`.  The
pipeline hands the builder a Python-syntax string (`a?b:c` already
rewritten to `(b if a else c)`, `!`/`&&`/`||` to `not`/`and`/`or`), so
the builder below lexes and parses that concrete syntax into the tree. -/
inductive PyExpr
  | lit (k : Nat)
  | var
  | pnot (e : PyExpr)
  | mul (a b : PyExpr)
  | div (a b : PyExpr)
  | mod (a b : PyExpr)
  | add (a b : PyExpr)
  | sub (a b : PyExpr)
  | lt (a b : PyExpr)
  | le (a b : PyExpr)
  | gt (a b : PyExpr)
  | ge (a b : PyExpr)
  | eq (a b : PyExpr)
  | ne (a b : PyExpr)
  | pand (a b : PyExpr)
  | por (a b : PyExpr)
  | cond (c t f : PyExpr)
deriving DecidableEq

inductive ArithErr
  | overflow
  | divByZero
deriving DecidableEq

def i64min : Int := -(2 ^ 63)

def i64max : Int := 2 ^ 63 - 1

def inI64 (k : Int) : Bool := i64min ≤ k && k ≤ i64max

def chkI64 (k : Int) : Except ArithErr Int :=
  if inI64 k then .ok k else .error .overflow

/-- `Expression.evaluate(n)` (modelled from the spec, see above):
short-circuiting `and`/`or`, comparisons and boolean results coerced to
`0`/`1`, C-style truncating division and modulo, overflow and
division-by-zero reported as `ArithmeticError`. -/
def PyExpr.eval : PyExpr → Int → Except ArithErr Int
  | .lit k, _ => .ok (k : Int)
  | .var, n => .ok n
  | .pnot e, n => do
    let v ← e.eval n
    pure (if v = 0 then 1 else 0)
  | .mul a b, n => do
    let x ← a.eval n
    let y ← b.eval n
    chkI64 (x * y)
  | .div a b, n => do
    let x ← a.eval n
    let y ← b.eval n
    if y = 0 then throw .divByZero else chkI64 (Int.tdiv x y)
  | .mod a b, n => do
    let x ← a.eval n
    let y ← b.eval n
    if y = 0 then throw .divByZero else chkI64 (Int.tmod x y)
  | .add a b, n => do
    let x ← a.eval n
    let y ← b.eval n
    chkI64 (x + y)
  | .sub a b, n => do
    let x ← a.eval n
    let y ← b.eval n
    chkI64 (x - y)
  | .lt a b, n => do
    let x ← a.eval n
    let y ← b.eval n
    pure (if x < y then 1 else 0)
  | .le a b, n => do
    let x ← a.eval n
    let y ← b.eval n
    pure (if x ≤ y then 1 else 0)
  | .gt a b, n => do
    let x ← a.eval n
    let y ← b.eval n
    pure (if y < x then 1 else 0)
  | .ge a b, n => do
    let x ← a.eval n
    let y ← b.eval n
    pure (if y ≤ x then 1 else 0)
  | .eq a b, n => do
    let x ← a.eval n
    let y ← b.eval n
    pure (if x = y then 1 else 0)
  | .ne a b, n => do
    let x ← a.eval n
    let y ← b.eval n
    pure (if x = y then 0 else 1)
  | .pand a b, n => do
    let x ← a.eval n
    if x = 0 then pure 0
    else do
      let y ← b.eval n
      pure (if y = 0 then 0 else 1)
  | .por a b, n => do
    let x ← a.eval n
    if x = 0 then do
      let y ← b.eval n
      pure (if y = 0 then 0 else 1)
    else pure 1
  | .cond c t f, n => do
    let v ← c.eval n
    if v = 0 then f.eval n else t.eval n

inductive PTok
  | num (k : Nat)
  | kwIf
  | kwElse
  | kwNot
  | kwAnd
  | kwOr
  | varN
  | opEq
  | opNe
  | opLt
  | opLe
  | opGt
  | opGe
  | opAdd
  | opSub
  | opMul
  | opDiv
  | opMod
  | lpar
  | rpar
deriving DecidableEq

def isAlphaChar (c : Char) : Bool := ('a' ≤ c && c ≤ 'z') || ('A' ≤ c && c ≤ 'Z')

/-- Lexer for the generated Python-syntax expression strings. -/
def pyLex : Nat → List Char → Option (List PTok)
  | 0, _ => none
  | _, [] => some []
  | fuel + 1, c :: cs =>
    if c = ' ' || c = '\t' then pyLex fuel cs
    else if isDigitChar c then
      (pyLex fuel ((c :: cs).dropWhile isDigitChar)).map
        (PTok.num (natOfDigits ((c :: cs).takeWhile isDigitChar)) :: ·)
    else if isAlphaChar c then
      if (c :: cs).takeWhile isAlphaChar = "if".toList then
        (pyLex fuel ((c :: cs).dropWhile isAlphaChar)).map (PTok.kwIf :: ·)
      else if (c :: cs).takeWhile isAlphaChar = "else".toList then
        (pyLex fuel ((c :: cs).dropWhile isAlphaChar)).map (PTok.kwElse :: ·)
      else if (c :: cs).takeWhile isAlphaChar = "not".toList then
        (pyLex fuel ((c :: cs).dropWhile isAlphaChar)).map (PTok.kwNot :: ·)
      else if (c :: cs).takeWhile isAlphaChar = "and".toList then
        (pyLex fuel ((c :: cs).dropWhile isAlphaChar)).map (PTok.kwAnd :: ·)
      else if (c :: cs).takeWhile isAlphaChar = "or".toList then
        (pyLex fuel ((c :: cs).dropWhile isAlphaChar)).map (PTok.kwOr :: ·)
      else if (c :: cs).takeWhile isAlphaChar = ['n'] then
        (pyLex fuel ((c :: cs).dropWhile isAlphaChar)).map (PTok.varN :: ·)
      else none
    else if c = '=' then
      match cs with
      | '=' :: rest => (pyLex fuel rest).map (PTok.opEq :: ·)
      | _ => none
    else if c = '!' then
      match cs with
      | '=' :: rest => (pyLex fuel rest).map (PTok.opNe :: ·)
      | _ => none
    else if c = '<' then
      match cs with
      | '=' :: rest => (pyLex fuel rest).map (PTok.opLe :: ·)
      | _ => (pyLex fuel cs).map (PTok.opLt :: ·)
    else if c = '>' then
      match cs with
      | '=' :: rest => (pyLex fuel rest).map (PTok.opGe :: ·)
      | _ => (pyLex fuel cs).map (PTok.opGt :: ·)
    else if c = '+' then (pyLex fuel cs).map (PTok.opAdd :: ·)
    else if c = '-' then (pyLex fuel cs).map (PTok.opSub :: ·)
    else if c = '*' then (pyLex fuel cs).map (PTok.opMul :: ·)
    else if c = '/' then (pyLex fuel cs).map (PTok.opDiv :: ·)
    else if c = '%' then (pyLex fuel cs).map (PTok.opMod :: ·)
    else if c = '(' then (pyLex fuel cs).map (PTok.lpar :: ·)
    else if c = ')' then (pyLex fuel cs).map (PTok.rpar :: ·)
    else none

/-- Parser modes: precedence levels (0 conditional, 1 `or`, 2 `and`,
3 `not`, 4 equality, 5 relational, 6 additive, 7 multiplicative, 8 atom;
the binary levels are left-associative, the conditional right-associative
per §4.1) and the left-associative chain state. -/
inductive PMode
  | level (lvl : Nat)
  | chain (lvl : Nat) (acc : PyExpr)

def chainOp (lvl : Nat) (t : PTok) : Option (PyExpr → PyExpr → PyExpr) :=
  match lvl, t with
  | 1, .kwOr => some .por
  | 2, .kwAnd => some .pand
  | 4, .opEq => some .eq
  | 4, .opNe => some .ne
  | 5, .opLt => some .lt
  | 5, .opLe => some .le
  | 5, .opGt => some .gt
  | 5, .opGe => some .ge
  | 6, .opAdd => some .add
  | 6, .opSub => some .sub
  | 7, .opMul => some .mul
  | 7, .opDiv => some .div
  | 7, .opMod => some .mod
  | _, _ => none

def parseP : Nat → PMode → List PTok → Option (PyExpr × List PTok)
  | 0, _, _ => none
  | fuel + 1, .level 0, ts =>
    match parseP fuel (.level 1) ts with
    | some (e, .kwIf :: ts2) =>
      match parseP fuel (.level 1) ts2 with
      | some (c, .kwElse :: ts4) =>
        match parseP fuel (.level 0) ts4 with
        | some (f, ts5) => some (.cond c e f, ts5)
        | none => none
      | _ => none
    | some (e, ts1) => some (e, ts1)
    | none => none
  | fuel + 1, .level 1, ts =>
    match parseP fuel (.level 2) ts with
    | some (e, ts1) => parseP fuel (.chain 1 e) ts1
    | none => none
  | fuel + 1, .level 2, ts =>
    match parseP fuel (.level 3) ts with
    | some (e, ts1) => parseP fuel (.chain 2 e) ts1
    | none => none
  | fuel + 1, .level 3, ts =>
    match ts with
    | .kwNot :: ts1 =>
      match parseP fuel (.level 3) ts1 with
      | some (e, ts2) => some (.pnot e, ts2)
      | none => none
    | _ => parseP fuel (.level 4) ts
  | fuel + 1, .level 4, ts =>
    match parseP fuel (.level 5) ts with
    | some (e, ts1) => parseP fuel (.chain 4 e) ts1
    | none => none
  | fuel + 1, .level 5, ts =>
    match parseP fuel (.level 6) ts with
    | some (e, ts1) => parseP fuel (.chain 5 e) ts1
    | none => none
  | fuel + 1, .level 6, ts =>
    match parseP fuel (.level 7) ts with
    | some (e, ts1) => parseP fuel (.chain 6 e) ts1
    | none => none
  | fuel + 1, .level 7, ts =>
    match parseP fuel (.level 8) ts with
    | some (e, ts1) => parseP fuel (.chain 7 e) ts1
    | none => none
  | fuel + 1, .level 8, ts =>
    match ts with
    | .num k :: ts1 => some (.lit k, ts1)
    | .varN :: ts1 => some (.var, ts1)
    | .lpar :: ts1 =>
      match parseP fuel (.level 0) ts1 with
      | some (e, .rpar :: ts2) => some (e, ts2)
      | _ => none
    | _ => none
  | _ + 1, .level _, _ => none
  | fuel + 1, .chain lvl acc, ts =>
    match ts with
    | t :: ts1 =>
      match chainOp lvl t with
      | some f =>
        match parseP fuel (.level (lvl + 1)) ts1 with
        | some (e, ts2) => parseP fuel (.chain lvl (f acc e)) ts2
        | none => none
      | none => some (acc, ts)
    | [] => some (acc, ts)

/-- `intexpr.Expression(s)` (modelled from the spec, see above): lex and
parse the generated Python-syntax string; `none` models `SyntaxError`. -/
def pyExpression (t : List Char) : Option PyExpr :=
  match pyLex (t.length + 1) t with
  | none => none
  | some ptoks =>
    match parseP ((ptoks.length + 1) * 16) (.level 0) ptoks with
    | some (e, []) => some e
    | _ => none

/-- `parse_plural_expression(s)`: tokenize, run the bracket-matching
stack (rewriting ternaries bottom-up), rewrite the top level, and build
the expression. -/
def parse_plural_expression (s : List Char) : Option PyExpr :=
  match pluralExpTokenize (s.length + 1) s with
  | none => none
  | some toks =>
    match ppeLoop toks [[]] with
    | none => none
    | some t => pyExpression t

/-- Evaluation of the expression of a parsed Plural-Forms declaration. -/
def pluralFormsEval (s : List Char) (i : Int) : Option (Except ArithErr Int) :=
  (parse_plural_forms parse_plural_expression s).map (fun p => p.2.eval i)

end Gettext

namespace Check

open Gettext (ArithErr)

/-! ### `lib/check/__init__.py` — `Checker.check_plurals`, sampling and
codomain analysis (lines 445–506) -/
/-- The tags reported by the sampling and codomain sections of
`check_plurals`, with their evidentiary payloads.  The Boolean records the
`has_plurals` severity variant (`...-in-plural-forms` versus
`...-in-unused-plural-forms`). -/
inductive PluralFinding
  | codomainWitness (hasPlurals : Bool) (i : Nat) (v : Int) (n : Nat)
  | codomainRange (hasPlurals : Bool) (lo hi : Int)
  | arithmeticError (hasPlurals : Bool) (kind : ArithErr) (i : Nat)
  | unusualPluralForms (hasPlurals : Bool)
deriving DecidableEq

/-- The `plural_preimage` accumulator, a `defaultdict(list)` keyed by the
expression value, each key holding its sample indices in order. -/
abbrev Pim := List (Int × List Nat)

def pimAdd : Pim → Int → Nat → Pim
  | [], k, i => [(k, [i])]
  | (k', l) :: rest, k, i =>
    if k' = k then (k', l ++ [i]) :: rest
    else (k', l) :: pimAdd rest k i

def codomain_limit : Nat := 200

/-- The sampling loop of `check_plurals` (`for i in range(200)` with its
`else` clause, inside the `try`): each index evaluates the expression; a
value `>= n` reports the codomain error with witness `(i, value, n)` and
breaks; otherwise the preimage is extended, the locally-correct expression
(when one with matching `nplurals` exists) is evaluated and compared,
reporting `unusual-plural-forms` at the first disagreement only; an
`OverflowError`/`ZeroDivisionError` from either evaluation reports the
arithmetic-error finding carrying the current index and abandons the
loop.  The preimage is kept only when the loop runs to completion. -/
def sampleGo (n : Nat) (expr : Nat → Except ArithErr Int)
    (lc : Option (Nat → Except ArithErr Int)) (hp : Bool) :
    Nat → Nat → Pim → Bool → List PluralFinding × Option Pim
  | _, 0, p, _ => ([], some p)
  | i, fuel + 1, p, unusual =>
    match expr i with
    | .error k => ([.arithmeticError hp k i], none)
    | .ok fi =>
      if (n : Int) ≤ fi then ([.codomainWitness hp i fi n], none)
      else
        match lc with
        | none => sampleGo n expr lc hp (i + 1) fuel (pimAdd p fi i) unusual
        | some l =>
          match l i with
          | .error k => ([.arithmeticError hp k i], none)
          | .ok gi =>
            if fi ≠ gi ∧ unusual = false then
              ((PluralFinding.unusualPluralForms hp)
                  :: (sampleGo n expr lc hp (i + 1) fuel (pimAdd p fi i) true).1,
                (sampleGo n expr lc hp (i + 1) fuel (pimAdd p fi i) true).2)
            else
              sampleGo n expr lc hp (i + 1) fuel (pimAdd p fi i) unusual

def samplingLoop (n : Nat) (expr : Nat → Except ArithErr Int)
    (lc : Option (Nat → Except ArithErr Int)) (hp : Bool) :
    List PluralFinding × Option Pim :=
  sampleGo n expr lc hp 0 codomain_limit [] false

inductive PyRuntimeError
  | unboundLocalError
deriving DecidableEq

def pimKeys (p : Pim) : List Int := p.map (fun e => e.1)

def pimMem (p : Pim) (k : Int) : Bool := (pimKeys p).contains k

/-- The neighbor-gap heuristic (`for i in sorted(ctx.plural_preimage)`):
the first plural index whose immediate lower or upper neighbor inside
`[0, n)` is never produced yields a one-element uncovered range, and the
scan stops. -/
def neighborScan (n : Nat) (p : Pim) : List Int → List (Int × Int)
  | [] => []
  | i :: rest =>
    if 0 < i ∧ pimMem p (i - 1) = false then [(i - 1, i)]
    else if i + 1 < (n : Int) ∧ pimMem p (i + 1) = false then [(i + 1, i + 2)]
    else neighborScan n p rest

/-- The codomain section of `check_plurals` (lines 479–506).  In this
source `uncov_rngs = []` is assigned only inside the
`if codomain is not None:` branch, so when `Expression.codomain()` returns
`None` the read of `uncov_rngs` at line 487 raises `UnboundLocalError`,
modelled as the error result.  Otherwise: a static bound `(x, y)`
contributes `range(0, x)` and `range(y+1, n)` when nonempty; when no
static gap was found and the preimage survived sampling, a statically
determined period with `offset + length < 200` lets the neighbor-gap scan
run; every reported range finding resets the preimage to `None`. -/
def postSampling (n : Nat) (hp : Bool) (codomain : Option (Int × Int))
    (period : Option (Nat × Nat)) (pim : Option Pim) :
    Except PyRuntimeError (List PluralFinding × Option Pim) :=
  match codomain with
  | none => .error .unboundLocalError
  | some (x, y) =>
    let u1 : List (Int × Int) :=
      (if 0 < x then [(0, x)] else [])
        ++ (if y + 1 < (n : Int) then [(y + 1, (n : Int))] else [])
    let u2 : List (Int × Int) :=
      if u1.isEmpty ∧ pim.isSome = true then
        match pim with
        | some p =>
          match period with
          | none => u1
          | some (off, len) =>
            if off + len < codomain_limit then
              neighborScan n p (List.insertionSort (fun a b : Int => a ≤ b) (pimKeys p))
            else u1
        | none => u1
      else u1
    .ok (u2.map (fun r => PluralFinding.codomainRange hp r.1 r.2),
      if u2.isEmpty then pim else none)

/-- Lines 445–506 of `check_plurals` chained: the sampling loop followed
by the codomain section, with `codomain` and `period` standing for the
results of `expr.codomain()` and `expr.period()`. -/
def checkPluralsCore (n : Nat) (expr : Nat → Except ArithErr Int)
    (lc : Option (Nat → Except ArithErr Int)) (hp : Bool)
    (codomain : Option (Int × Int)) (period : Option (Nat × Nat)) :
    Except PyRuntimeError (List PluralFinding × Option Pim) :=
  match postSampling n hp codomain period (samplingLoop n expr lc hp).2 with
  | .error e => .error e
  | .ok (fs2, pim2) => .ok ((samplingLoop n expr lc hp).1 ++ fs2, pim2)

/-- `okLt n r`: the evaluation result is a value strictly below `n`
(neither an arithmetic error nor a codomain violation). -/
def okLt (n : Nat) (r : Except ArithErr Int) : Bool :=
  match r with
  | .ok v => decide (v < (n : Int))
  | .error _ => false

def isRangeFinding : PluralFinding → Bool
  | .codomainRange _ _ _ => true
  | _ => false

end Check

namespace Flags

/-! ### `lib/check/__init__.py` — `Checker._check_message_flags` -/
/-- The tags reported by `_check_message_flags`, with the offending flag
strings as evidentiary arguments. -/
inductive FlagFinding
  | conflictingMessageFlags (f1 f2 : List Char)
  | redundantMessageFlag (possibleFlag impliedBy : List Char)
  | unknownMessageFlag (f : List Char)
  | duplicateMessageFlag (f : List Char)
  | rangeFlagWithoutPluralString
  | invalidRangeFlag (f : List Char)
deriving DecidableEq

/-- The four qualifier classes of a format flag (`tp` in the source:
`''`, `'no'`, `'possible'`, `'impossible'`). -/
inductive FPrefix
  | pos
  | no
  | possible
  | impossible
deriving DecidableEq

def prefixStr : FPrefix → List Char
  | .no => "no-".toList
  | .possible => "possible-".toList
  | .impossible => "impossible-".toList
  | .pos => []

/-- `Modelled from the spec: gettext.string_formats` is referenced by
`_check_message_flags` but absent from `src/lib/gettext.py`; per §4.4 it
is the closed table mapping each known dialect name to the set of
placeholder examples its grammar accepts, kept abstract here as an
association list. -/
abbrev StringFormats := List (List Char × List (List Char))

def sfKeys (sf : StringFormats) : List (List Char) := sf.map (fun e => e.1)

def sfGet (sf : StringFormats) (k : List Char) : List (List Char) :=
  match sf with
  | [] => []
  | (k', v) :: rest => if k' = k then v else sfGet rest k

/-- `flag[len(prefix):-7]`. -/
def stripFmt (flag : List Char) (pre : List Char) : List Char :=
  (flag.drop pre.length).take ((flag.drop pre.length).length - 7)

/-- The prefix loop of the `-format` branch (lines 930–938): the first of
`no-`, `possible-`, `impossible-`, `''` that is a prefix of the flag and
whose stripped dialect name is in the table wins; otherwise the flag is
unknown. -/
def tryFormatPrefixes (keys : List (List Char)) (flag : List Char) :
    List FPrefix → Option (FPrefix × List Char)
  | [] => none
  | pr :: prs =>
    if (prefixStr pr).isPrefixOf flag then
      if keys.contains (stripFmt flag (prefixStr pr)) then
        some (pr, stripFmt flag (prefixStr pr))
      else tryFormatPrefixes keys flag prs
    else tryFormatPrefixes keys flag prs

def classifyFormatFlag (sf : StringFormats) (flag : List Char) :
    Option (FPrefix × List Char) :=
  if ("-format".toList).isSuffixOf flag then
    tryFormatPrefixes (sfKeys sf) flag [FPrefix.no, .possible, .impossible, .pos]
  else none

def dictAssign : List (List Char × List Char) → List Char → List Char
    → List (List Char × List Char)
  | [], k, v => [(k, v)]
  | (k', v') :: rest, k, v =>
    if k' = k then (k', v) :: rest else (k', v') :: dictAssign rest k v

def dictKeys (d : List (List Char × List Char)) : List (List Char) :=
  d.map (fun e => e.1)

def dictGet (d : List (List Char × List Char)) (k : List Char) : List Char :=
  match d with
  | [] => []
  | (k', v) :: rest => if k' = k then v else dictGet rest k

def ctrAdd : List (List Char × Nat) → List Char → Nat → List (List Char × Nat)
  | [], k, n => [(k, n)]
  | (k', m) :: rest, k, n =>
    if k' = k then (k', m + n) :: rest else (k', m) :: ctrAdd rest k n

def rfAdd : List ((Nat × Nat) × List (List Char × Nat)) → Nat × Nat → List Char → Nat
    → List ((Nat × Nat) × List (List Char × Nat))
  | [], key, fl, n => [(key, [(fl, n)])]
  | (key', ctr) :: rest, key, fl, n =>
    if key' = key then (key', ctrAdd ctr fl n) :: rest
    else (key', ctr) :: rfAdd rest key fl n

def isStripChar (c : Char) : Bool :=
  c = ' ' || c = '\t' || c = '\r' || c = '\x0c' || c = '\x0b'

/-- `.strip(' \t\r\f\v')`. -/
def stripChars (l : List Char) : List Char :=
  ((l.dropWhile isStripChar).reverse.dropWhile isStripChar).reverse

/-- The match of `\A([0-9]+)[.][.]([0-9]+)\Z`. -/
def parseRange (l : List Char) : Option (Nat × Nat) :=
  if (l.takeWhile Gettext.isDigitChar).isEmpty then none
  else
    match l.dropWhile Gettext.isDigitChar with
    | '.' :: '.' :: rest =>
      if rest.isEmpty then none
      else if rest.all Gettext.isDigitChar then
        some (Gettext.natOfDigits (l.takeWhile Gettext.isDigitChar),
          Gettext.natOfDigits rest)
      else none
    | _ => none

structure FlagState where
  fuzzy : Bool
  wrap : Option Bool
  fmtPos : List (List Char × List Char)
  fmtNo : List (List Char × List Char)
  fmtPossible : List (List Char × List Char)
  fmtImpossible : List (List Char × List Char)
  rangeFlags : List ((Nat × Nat) × List (List Char × Nat))
  findings : List FlagFinding

def initFlagState : FlagState := ⟨false, none, [], [], [], [], [], []⟩

def addFinding (st : FlagState) (f : FlagFinding) : FlagState :=
  { st with findings := st.findings ++ [f] }

def setFmt (st : FlagState) (pr : FPrefix) (fmt flag : List Char) : FlagState :=
  match pr with
  | .pos => { st with fmtPos := dictAssign st.fmtPos fmt flag }
  | .no => { st with fmtNo := dictAssign st.fmtNo fmt flag }
  | .possible => { st with fmtPossible := dictAssign st.fmtPossible fmt flag }
  | .impossible => { st with fmtImpossible := dictAssign st.fmtImpossible fmt flag }

def rangeSt (st : FlagState) (msgidPlural : Bool) : FlagState :=
  if msgidPlural then st else addFinding st .rangeFlagWithoutPluralString

/-- The branch dispatch of one iteration of
`for flag, n in sorted(flags.items())` (lines 896–945): `fuzzy`,
`wrap`/`no-wrap`, `range:`, `*-format`, unknown.  Returns the updated
state together with the (possibly zeroed) count `n`. -/
def onFlagCore (sf : StringFormats) (msgidPlural : Bool)
    (st : FlagState) (flag : List Char) (n : Nat) : FlagState × Nat :=
  if flag = "fuzzy".toList then ({ st with fuzzy := true }, n)
  else if flag = "wrap".toList ∨ flag = "no-wrap".toList then
    (if st.wrap = some (!(flag = "wrap".toList)) then
      addFinding st (.conflictingMessageFlags "wrap".toList "no-wrap".toList)
    else { st with wrap := some (flag = "wrap".toList) }, n)
  else if ("range:".toList).isPrefixOf flag then
    match parseRange (stripChars (flag.drop 6)) with
    | some (i, j) =>
      if i < j then
        ({ rangeSt st msgidPlural with
            rangeFlags := rfAdd (rangeSt st msgidPlural).rangeFlags (i, j) flag n }, 0)
      else (addFinding (rangeSt st msgidPlural) (.invalidRangeFlag flag), n)
    | none => (addFinding (rangeSt st msgidPlural) (.invalidRangeFlag flag), n)
  else if ("-format".toList).isSuffixOf flag then
    match classifyFormatFlag sf flag with
    | some (pr, fmt) => (setFmt st pr fmt flag, n)
    | none => (addFinding st (.unknownMessageFlag flag), n)
  else (addFinding st (.unknownMessageFlag flag), n)

/-- One full iteration of the flag loop: the branch dispatch followed by
the duplicate report (lines 946–950; the `range:` branch zeroes `n` when
it records the range, suppressing the report). -/
def onFlag (sf : StringFormats) (msgidPlural : Bool)
    (st : FlagState) (fn : List Char × Nat) : FlagState :=
  if 1 < (onFlagCore sf msgidPlural st fn.1 fn.2).2 ∧ fn.1 ≠ [] then
    addFinding (onFlagCore sf msgidPlural st fn.1 fn.2).1 (.duplicateMessageFlag fn.1)
  else (onFlagCore sf msgidPlural st fn.1 fn.2).1

/-- `sorted(Counter(message.flags).items())`. -/
def counterItems (flags : List (List Char)) : List (List Char × Nat) :=
  (pySorted flags.dedup).map (fun f => (f, flags.count f))

def pairNatLe (a b : Nat × Nat) : Bool :=
  decide (a.1 < b.1) || (decide (a.1 = b.1) && decide (a.2 ≤ b.2))

def minFlagKey (ctr : List (List Char × Nat)) : List Char :=
  (pySorted (ctr.map (fun e => e.1))).headD []

def ctrTotal (ctr : List (List Char × Nat)) : Nat :=
  (ctr.map (fun e => e.2)).sum

def rfGet (rf : List ((Nat × Nat) × List (List Char × Nat))) (k : Nat × Nat) :
    List (List Char × Nat) :=
  match rf with
  | [] => []
  | (k', ctr) :: rest => if k' = k then ctr else rfGet rest k

/-- Lines 951–964: conflicting or duplicated `range:` flags. -/
def rangeBlock (rf : List ((Nat × Nat) × List (List Char × Nat))) : List FlagFinding :=
  if 1 < rf.length then
    match List.insertionSort (fun a b => pairNatLe a b = true) (rf.map (fun e => e.1)) with
    | r1 :: r2 :: _ =>
      [.conflictingMessageFlags
        (minFlagKey (rfGet rf r1)) (minFlagKey (rfGet rf r2))]
    | _ => []
  else
    match rf with
    | [(_, ctr)] => if 1 < ctrTotal ctr then [.duplicateMessageFlag (minFlagKey ctr)] else []
    | _ => []

def concatMap (f : α → List β) : List α → List β
  | [] => []
  | x :: xs => f x ++ concatMap f xs

def sortedItems (d : List (List Char × List Char)) : List (List Char × List Char) :=
  List.insertionSort (fun a b => strLe a.1 b.1 = true) d

/-- Lines 967–979: pairwise incompatibility of two different positive
format dialects whose accepted placeholder sets do not overlap. -/
def positivePairFindings (sf : StringFormats)
    (pos : List (List Char × List Char)) : List FlagFinding :=
  concatMap (fun e1 =>
      (sortedItems pos).filterMap (fun e2 =>
        if strLe e2.1 e1.1 = true then none
        else if (sfGet sf e1.1).any (fun x => (sfGet sf e2.1).contains x) then none
        else some (.conflictingMessageFlags e1.2 e2.2)))
    (sortedItems pos)

/-- Lines 980–989: positive versus `no-`/`impossible-` (and `possible-`
versus `impossible-`) of the same dialect. -/
def pairFindings (posd negd : List (List Char × List Char)) : List FlagFinding :=
  (pySorted ((dictKeys posd).filter (fun k => (dictKeys negd).contains k))).map
    (fun fmt => .conflictingMessageFlags (dictGet posd fmt) (dictGet negd fmt))

/-- Lines 990–998: positive plus `possible-` of the same dialect is
redundant, not conflicting. -/
def redundantFindings (posd possd : List (List Char × List Char)) : List FlagFinding :=
  (pySorted ((dictKeys posd).filter (fun k => (dictKeys possd).contains k))).map
    (fun fmt => .redundantMessageFlag (dictGet possd fmt) (dictGet posd fmt))

/-- The state after the per-flag loop over the sorted counter of the raw
flag list. -/
def flagLoopState (sf : StringFormats) (msgidPlural : Bool)
    (flags : List (List Char)) : FlagState :=
  (counterItems flags).foldl (onFlag sf msgidPlural) initFlagState

/-- `_check_message_flags` restricted to its findings (the returned
`info` record carries no diagnostics): the per-flag loop, then the
range, pairwise-incompatibility, positive/negative conflict and
redundancy blocks, in source order. -/
def check_message_flags (sf : StringFormats) (msgidPlural : Bool)
    (flags : List (List Char)) : List FlagFinding :=
  (flagLoopState sf msgidPlural flags).findings
    ++ rangeBlock (flagLoopState sf msgidPlural flags).rangeFlags
    ++ positivePairFindings sf (flagLoopState sf msgidPlural flags).fmtPos
    ++ pairFindings (flagLoopState sf msgidPlural flags).fmtPos
        (flagLoopState sf msgidPlural flags).fmtNo
    ++ pairFindings (flagLoopState sf msgidPlural flags).fmtPos
        (flagLoopState sf msgidPlural flags).fmtImpossible
    ++ pairFindings (flagLoopState sf msgidPlural flags).fmtPossible
        (flagLoopState sf msgidPlural flags).fmtImpossible
    ++ redundantFindings (flagLoopState sf msgidPlural flags).fmtPos
        (flagLoopState sf msgidPlural flags).fmtPossible

def isConflictFinding : FlagFinding → Bool
  | .conflictingMessageFlags _ _ => true
  | _ => false

def isRedundantFinding : FlagFinding → Bool
  | .redundantMessageFlag _ _ => true
  | _ => false

/-- `Modelled from the spec: gettext.string_formats` is absent from
`src/lib/gettext.py`; a one-row instance of the table (the C dialect
with two placeholder examples) used to exercise the flag checker. -/
def stringFormatsC : StringFormats := [("c".toList, ["%d".toList, "%s".toList])]

end Flags

theorem char_toNat_inj {a b : Char} (h : a.toNat = b.toNat) : a = b := by
  cases a; cases b
  simp only [Char.toNat] at h
  congr 1
  exact UInt32.ext h

theorem strLe_total : ∀ a b : List Char, strLe a b = true ∨ strLe b a = true := by
  intro a
  induction a with
  | nil => intro b; left; rfl
  | cons x xs ih =>
    intro b
    cases b with
    | nil => right; rfl
    | cons y ys =>
      by_cases hxy : x = y
      · subst hxy
        rcases ih ys with h | h
        · left; simp [strLe, h]
        · right; simp [strLe, h]
      · have hne : x.toNat ≠ y.toNat := fun h => hxy (char_toNat_inj h)
        rcases Nat.lt_or_ge x.toNat y.toNat with h | h
        · left; simp [strLe, hxy, h]
        · have h2 : y.toNat < x.toNat := lt_of_le_of_ne h (fun e => hne e.symm)
          right; simp [strLe, Ne.symm hxy, h2]

theorem strLe_trans :
    ∀ a b c : List Char, strLe a b = true → strLe b c = true → strLe a c = true := by
  intro a
  induction a with
  | nil => intro b c _ _; rfl
  | cons x xs ih =>
    intro b c hab hbc
    cases b with
    | nil => simp [strLe] at hab
    | cons y ys =>
      cases c with
      | nil => simp [strLe] at hbc
      | cons z zs =>
        by_cases hxy : x = y
        · subst hxy
          simp only [strLe, if_pos rfl] at hab
          by_cases hyz : x = z
          · subst hyz
            simp only [strLe, if_pos rfl] at hbc ⊢
            exact ih ys zs hab hbc
          · simp only [strLe, if_neg hyz] at hbc ⊢
            exact hbc
        · simp only [strLe, if_neg hxy] at hab
          by_cases hyz : y = z
          · subst hyz
            simp only [strLe, if_neg hxy]
            exact hab
          · simp only [strLe, if_neg hyz] at hbc
            by_cases hxz : x = z
            · subst hxz
              exfalso
              have h1 := of_decide_eq_true hab
              have h2 := of_decide_eq_true hbc
              exact absurd (Nat.lt_trans h1 h2) (Nat.lt_irrefl _)
            · simp only [strLe, if_neg hxz]
              exact decide_eq_true (Nat.lt_trans (of_decide_eq_true hab) (of_decide_eq_true hbc))

theorem strLe_antisymm :
    ∀ a b : List Char, strLe a b = true → strLe b a = true → a = b := by
  intro a
  induction a with
  | nil =>
    intro b _ hba
    cases b with
    | nil => rfl
    | cons y ys => simp [strLe] at hba
  | cons x xs ih =>
    intro b hab hba
    cases b with
    | nil => simp [strLe] at hab
    | cons y ys =>
      by_cases hxy : x = y
      · subst hxy
        simp only [strLe, if_pos rfl] at hab hba
        rw [ih ys hab hba]
      · simp only [strLe, if_neg hxy, if_neg (Ne.symm hxy)] at hab hba
        exact absurd (Nat.lt_trans (of_decide_eq_true hab) (of_decide_eq_true hba))
          (Nat.lt_irrefl _)

instance : IsTotal (List Char) StrLeP := ⟨strLe_total⟩

instance : IsTrans (List Char) StrLeP := ⟨strLe_trans⟩

instance : IsAntisymm (List Char) StrLeP := ⟨strLe_antisymm⟩

theorem pySorted_perm (l : List (List Char)) : (pySorted l).Perm l :=
  List.perm_insertionSort StrLeP l

/-- Two set-equal duplicate-free collections sort to the same list. -/
theorem pySorted_eq_of_set_eq {l₁ l₂ : List (List Char)}
    (h₁ : l₁.Nodup) (h₂ : l₂.Nodup) (h : ∀ k, k ∈ l₁ ↔ k ∈ l₂) :
    pySorted l₁ = pySorted l₂ := by
  have hperm : l₁.Perm l₂ := by
    apply List.perm_of_nodup_nodup_toFinset_eq h₁ h₂
    ext k
    simp [h k]
  exact List.eq_of_perm_of_sorted
    ((pySorted_perm l₁).trans (hperm.trans (pySorted_perm l₂).symm))
    (List.sorted_insertionSort StrLeP l₁)
    (List.sorted_insertionSort StrLeP l₂)

namespace Wmlvar

theorem dropWhile_length_le (p : Char → Bool) (l : List Char) :
    (l.dropWhile p).length ≤ l.length := by
  induction l with
  | nil => simp
  | cons x xs ih =>
    by_cases h : p x
    · simpa [List.dropWhile, h] using Nat.le_succ_of_le ih
    · simp [List.dropWhile, h]

theorem takeName_shrink {w : Char → Bool} {l nm r : List Char}
    (h : takeName w l = some (nm, r)) : r.length < l.length := by
  cases l with
  | nil => simp [takeName] at h
  | cons c cs =>
    simp only [takeName] at h
    by_cases hw : w c
    · simp only [hw, if_true] at h
      by_cases he : (cs.takeWhile (wdot w)).isEmpty
      · simp [he] at h
      · simp only [he, Bool.false_eq_true, if_false, Option.some.injEq, Prod.mk.injEq] at h
        obtain ⟨h1, h2⟩ := h
        subst h2
        exact Nat.lt_succ_of_le (dropWhile_length_le _ _)
    · simp [hw] at h

theorem arguments_nodup (w : Char → Bool) (s : List Char) :
    (FormatString.ofString w s).arguments.Nodup := List.nodup_dedup _

theorem mem_arguments (w : Char → Bool) (s : List Char) (t : List Char) :
    t ∈ (FormatString.ofString w s).arguments ↔ t ∈ scanNames w s := List.mem_dedup

theorem placeholderAt_cons_succ (w : Char → Bool) (x : Char) (l : List Char)
    (i : Nat) (name : List Char) :
    placeholderAt w (x :: l) (i + 1) name = placeholderAt w l i name := by
  simp only [placeholderAt, List.drop_succ_cons]

theorem placeholderAt_drop (w : Char → Bool) (l : List Char) (k i : Nat)
    (name : List Char) :
    placeholderAt w (l.drop k) i name = placeholderAt w l (k + i) name := by
  simp only [placeholderAt, List.drop_drop]

theorem placeholderAt_nil (w : Char → Bool) (i : Nat) (name : List Char) :
    placeholderAt w [] i name = false := by
  simp [placeholderAt]

/-- The element just after `takeWhile p`, if any, fails `p`. -/
theorem dropWhile_boundary (p : Char → Bool) :
    ∀ cs : List Char, (match cs.dropWhile p with
      | [] => True
      | d :: _ => p d = false) := by
  intro cs
  induction cs with
  | nil => simp [List.dropWhile]
  | cons c cs ih =>
    by_cases h : p c
    · simpa [List.dropWhile, h] using ih
    · simp [List.dropWhile, h, eq_false_of_ne_true h]

theorem dropWhile_eq_drop (p : Char → Bool) :
    ∀ cs : List Char, cs.dropWhile p = cs.drop (cs.takeWhile p).length := by
  intro cs
  induction cs with
  | nil => simp
  | cons c cs ih =>
    by_cases h : p c
    · simpa [List.dropWhile, List.takeWhile, h] using ih
    · simp [List.dropWhile, List.takeWhile, h]

theorem take_takeWhile_length (p : Char → Bool) (cs : List Char) :
    cs.take (cs.takeWhile p).length = cs.takeWhile p :=
  (List.prefix_iff_eq_take.mp (List.takeWhile_prefix p)).symm

/-- `takeWhile` is the unique maximal all-`p` prefix. -/
theorem takeWhile_eq_of (p : Char → Bool) :
    ∀ (t cs : List Char), t = cs.take t.length → (∀ x ∈ t, p x = true) →
      (match cs.drop t.length with
        | [] => True
        | d :: _ => p d = false) →
      cs.takeWhile p = t := by
  intro t
  induction t with
  | nil =>
    intro cs _ _ hb
    simp only [List.length_nil, List.drop_zero] at hb
    cases cs with
    | nil => rfl
    | cons d ds => simp [List.takeWhile, hb]
  | cons x xs ih =>
    intro cs ht hall hb
    cases cs with
    | nil => simp at ht
    | cons c cs0 =>
      simp only [List.length_cons, List.take_succ_cons, List.cons.injEq] at ht
      obtain ⟨hx, hxs⟩ := ht
      subst hx
      have hpx : p x = true := hall x (List.mem_cons_self x xs)
      simp only [List.length_cons, List.drop_succ_cons] at hb
      rw [List.takeWhile_cons_of_pos hpx,
          ih cs0 hxs (fun y hy => hall y (List.mem_cons_of_mem x hy)) hb]

theorem takeName_facts {w : Char → Bool} {rest nm rest2 : List Char}
    (h : takeName w rest = some (nm, rest2)) :
    nm = rest.take nm.length ∧ nameShape w nm = true
    ∧ rest2 = rest.drop nm.length
    ∧ (match rest.drop nm.length with
        | [] => True
        | d :: _ => wdot w d = false)
    ∧ nm.all (wdot w) = true := by
  cases rest with
  | nil => simp [takeName] at h
  | cons c cs =>
    simp only [takeName] at h
    by_cases hw : w c
    · simp only [hw, if_true] at h
      by_cases he : (cs.takeWhile (wdot w)).isEmpty
      · simp [he] at h
      · simp only [he, Bool.false_eq_true, if_false, Option.some.injEq,
          Prod.mk.injEq] at h
        obtain ⟨h1, h2⟩ := h
        subst h1
        subst h2
        have hlen : (c :: cs.takeWhile (wdot w)).length
            = (cs.takeWhile (wdot w)).length + 1 := rfl
        have hrun : ∀ x ∈ cs.takeWhile (wdot w), wdot w x = true :=
          fun x hx => List.mem_takeWhile_imp hx
        refine ⟨?_, ?_, ?_, ?_, ?_⟩
        · simp only [hlen, List.take_succ_cons, List.cons.injEq, true_and]
          exact (take_takeWhile_length (wdot w) cs).symm
        · simp only [nameShape, hw, Bool.true_and, Bool.and_eq_true]
          constructor
          · simpa using he
          · exact List.all_eq_true.mpr hrun
        · simp only [hlen, List.drop_succ_cons]
          exact dropWhile_eq_drop (wdot w) cs
        · simp only [hlen, List.drop_succ_cons]
          have := dropWhile_boundary (wdot w) cs
          rwa [dropWhile_eq_drop (wdot w) cs] at this
        · simp only [List.all_cons, Bool.and_eq_true]
          exact ⟨by simp [wdot, hw], List.all_eq_true.mpr hrun⟩
    · simp [hw] at h

/-- Propositional characterization of `placeholderAt`. -/
theorem placeholderAt_eq_true_iff (w : Char → Bool) (l : List Char) (i : Nat)
    (name : List Char) :
    placeholderAt w l i name = true ↔
      ∃ rest, l.drop i = '$' :: rest ∧ nameShape w name = true ∧
        rest.take name.length = name ∧
        (match rest.drop name.length with
          | [] => True
          | d :: _ => wdot w d = false) := by
  unfold placeholderAt
  cases hdrop : l.drop i with
  | nil => simp
  | cons c rest =>
    simp only [Bool.and_eq_true, decide_eq_true_iff]
    constructor
    · rintro ⟨⟨⟨hc, hshape⟩, htake⟩, hbound⟩
      subst hc
      refine ⟨rest, rfl, hshape, htake, ?_⟩
      cases hb : rest.drop name.length with
      | nil => trivial
      | cons d ds =>
        rw [hb] at hbound
        simpa using hbound
    · rintro ⟨rest', heq, hshape, htake, hbound⟩
      injection heq with h1 h2
      subst h1
      subst h2
      refine ⟨⟨⟨rfl, hshape⟩, htake⟩, ?_⟩
      cases hb : rest.drop name.length with
      | nil => simp
      | cons d ds =>
        rw [hb] at hbound
        simpa using hbound

/-- When the match attempt after a `$` fails, no name fits at that
position. -/
theorem placeholderAt_zero_of_takeName_none {w : Char → Bool} {rest : List Char}
    (h : takeName w rest = none) (name : List Char) :
    placeholderAt w ('$' :: rest) 0 name = false := by
  rw [Bool.eq_false_iff]
  intro htrue
  obtain ⟨rest', heq, hshape, htake, hbound⟩ :=
    (placeholderAt_eq_true_iff w ('$' :: rest) 0 name).mp htrue
  simp only [List.drop_zero, List.cons.injEq, true_and] at heq
  subst heq
  cases hn : name with
  | nil => simp [hn, nameShape] at hshape
  | cons c' cs' =>
    subst hn
    simp only [nameShape, Bool.and_eq_true] at hshape
    obtain ⟨⟨hwc', hne⟩, hall⟩ := hshape
    have hne' : cs' ≠ [] := by
      intro hnil
      subst hnil
      simp at hne
    cases hrest : rest with
    | nil =>
      subst hrest
      simp at htake
    | cons c cs =>
      subst hrest
      have htake' : c = c' ∧ cs.take cs'.length = cs' := by
        simpa [List.length_cons, List.take_succ_cons] using htake
      obtain ⟨hc, hcs⟩ := htake'
      subst hc
      simp only [takeName, hwc', if_true] at h
      by_cases he : (cs.takeWhile (wdot w)).isEmpty
      · obtain ⟨y, ys, hys⟩ : ∃ y ys, cs' = y :: ys := by
          cases cs' with
          | nil => exact absurd rfl hne'
          | cons y ys => exact ⟨y, ys, rfl⟩
        subst hys
        have hy : wdot w y = true :=
          List.all_eq_true.mp hall y (List.mem_cons_self y ys)
        cases cs with
        | nil => simp at hcs
        | cons d ds =>
          have hd : d = y ∧ ds.take ys.length = ys := by
            simpa [List.length_cons, List.take_succ_cons] using hcs
          rw [List.takeWhile_cons_of_pos (hd.1 ▸ hy)] at he
          simp at he
      · simp [he] at h

/-- Any name fitting the placeholder shape, prefix and maximality
conditions against `rest` is forced to be the head of `rest` followed by
the maximal word-or-dot run. -/
theorem placeholder_name_unique {w : Char → Bool} {rest name : List Char}
    (hshape : nameShape w name = true)
    (htake : rest.take name.length = name)
    (hbound : (match rest.drop name.length with
        | [] => True
        | d :: _ => wdot w d = false)) :
    ∃ c cs, rest = c :: cs ∧ name = c :: cs.takeWhile (wdot w) := by
  cases name with
  | nil => simp [nameShape] at hshape
  | cons c' cs' =>
    simp only [nameShape, Bool.and_eq_true] at hshape
    obtain ⟨⟨hwc', hne⟩, hall⟩ := hshape
    cases rest with
    | nil => simp at htake
    | cons c cs =>
      have htake' : c = c' ∧ cs.take cs'.length = cs' := by
        simpa [List.length_cons, List.take_succ_cons] using htake
      obtain ⟨hc, hcs⟩ := htake'
      subst hc
      have hbound' : (match cs.drop cs'.length with
          | [] => True
          | d :: _ => wdot w d = false) := by
        simpa [List.length_cons, List.drop_succ_cons] using hbound
      refine ⟨c, cs, rfl, ?_⟩
      rw [takeWhile_eq_of (wdot w) cs' cs hcs.symm
        (fun x hx => List.all_eq_true.mp hall x hx) hbound']

/-- After a `$`, exactly the name produced by the match attempt fits. -/
theorem placeholderAt_zero_iff_of_takeName_some {w : Char → Bool}
    {rest nm rest2 : List Char} (h : takeName w rest = some (nm, rest2))
    (name : List Char) :
    placeholderAt w ('$' :: rest) 0 name = true ↔ name = nm := by
  obtain ⟨hpre, hshape, hrest2, hbound, hallnm⟩ := takeName_facts h
  obtain ⟨c, cs, hr, hnm⟩ := placeholder_name_unique hshape hpre.symm hbound
  constructor
  · intro ht
    obtain ⟨rest', heq, hshape', htake', hbound'⟩ :=
      (placeholderAt_eq_true_iff _ _ _ _).mp ht
    simp only [List.drop_zero] at heq
    injection heq with h1 h2
    subst h2
    obtain ⟨c₂, cs₂, hr₂, hname⟩ := placeholder_name_unique hshape' htake' hbound'
    rw [hr] at hr₂
    injection hr₂ with e1 e2
    subst e1
    subst e2
    rw [hname, hnm]
  · intro hn
    subst hn
    apply (placeholderAt_eq_true_iff _ _ _ _).mpr
    exact ⟨rest, by simp, hshape, hpre.symm, hbound⟩

/-- Positions strictly inside a matched name never hold a `$`, so no
placeholder starts there. -/
theorem placeholderAt_inside_name_false {w : Char → Bool} (hds : w '$' = false)
    {rest nm rest2 : List Char} (h : takeName w rest = some (nm, rest2))
    {j : Nat} (hj : j < nm.length) (name : List Char) :
    placeholderAt w rest j name = false := by
  obtain ⟨hpre, hshape, hrest2, hbound, hallnm⟩ := takeName_facts h
  rw [Bool.eq_false_iff]
  intro ht
  obtain ⟨rest', heq, -, -, -⟩ := (placeholderAt_eq_true_iff _ _ _ _).mp ht
  have hdol : rest[j]? = some '$' := by
    rw [← List.head?_drop, heq]
    rfl
  have hnmj : nm[j]? = rest[j]? := by
    conv_lhs => rw [hpre]
    rw [List.getElem?_take]
    simp [hj]
  have hmem : ('$' : Char) ∈ nm := List.getElem?_mem (hnmj ▸ hdol)
  have := List.all_eq_true.mp hallnm _ hmem
  simp [wdot, hds] at this

/-- Scanner/positions correspondence: a name is produced by the scan if
and only if a placeholder with that name starts at some position. -/
theorem mem_scanGo_iff {w : Char → Bool} (hds : w '$' = false) :
    ∀ (fuel : Nat) (l name : List Char), l.length ≤ fuel →
      (name ∈ scanGo w fuel l ↔ ∃ i, placeholderAt w l i name = true) := by
  intro fuel
  induction fuel with
  | zero =>
    intro l name hl
    have hnil : l = [] := List.length_eq_zero.mp (Nat.le_zero.mp hl)
    subst hnil
    simp [scanGo, placeholderAt_nil]
  | succ fuel ih =>
    intro l name hl
    cases l with
    | nil => simp [scanGo, placeholderAt_nil]
    | cons c rest =>
      have hrl : rest.length ≤ fuel := by
        simpa [List.length_cons] using Nat.succ_le_succ_iff.mp hl
      by_cases hc : c = '$'
      · subst hc
        cases htn : takeName w rest with
        | none =>
          simp only [scanGo, if_pos rfl, htn]
          constructor
          · intro hm
            obtain ⟨i, hi⟩ := (ih rest name hrl).mp hm
            exact ⟨i + 1, by rw [placeholderAt_cons_succ]; exact hi⟩
          · rintro ⟨i, hi⟩
            cases i with
            | zero =>
              rw [placeholderAt_zero_of_takeName_none htn] at hi
              exact absurd hi (by simp)
            | succ j =>
              rw [placeholderAt_cons_succ] at hi
              exact (ih rest name hrl).mpr ⟨j, hi⟩
        | some pr =>
          obtain ⟨nm, rest2⟩ := pr
          have hfacts := takeName_facts htn
          have hr2len : rest2.length ≤ fuel :=
            Nat.le_of_lt (Nat.lt_of_lt_of_le (takeName_shrink htn) hrl)
          simp only [scanGo, if_pos rfl, htn]
          constructor
          · intro hm
            rcases List.mem_cons.mp hm with heq | hmem
            · exact ⟨0, (placeholderAt_zero_iff_of_takeName_some htn name).mpr heq⟩
            · obtain ⟨i, hi⟩ := (ih rest2 name hr2len).mp hmem
              refine ⟨nm.length + 1 + i, ?_⟩
              rw [show nm.length + 1 + i = (nm.length + i) + 1 from by omega,
                  placeholderAt_cons_succ, ← placeholderAt_drop, ← hfacts.2.2.1]
              exact hi
          · rintro ⟨i, hi⟩
            cases i with
            | zero =>
              exact List.mem_cons.mpr
                (Or.inl ((placeholderAt_zero_iff_of_takeName_some htn name).mp hi))
            | succ j =>
              rw [placeholderAt_cons_succ] at hi
              by_cases hj : j < nm.length
              · rw [placeholderAt_inside_name_false hds htn hj] at hi
                cases hi
              · push_neg at hj
                have hshift : placeholderAt w rest2 (j - nm.length) name = true := by
                  rw [hfacts.2.2.1, placeholderAt_drop,
                      show nm.length + (j - nm.length) = j from by omega]
                  exact hi
                exact List.mem_cons.mpr
                  (Or.inr ((ih rest2 name hr2len).mpr ⟨j - nm.length, hshift⟩))
      · simp only [scanGo, if_neg hc]
        constructor
        · intro hm
          obtain ⟨i, hi⟩ := (ih rest name hrl).mp hm
          exact ⟨i + 1, by rw [placeholderAt_cons_succ]; exact hi⟩
        · rintro ⟨i, hi⟩
          cases i with
          | zero =>
            exfalso
            obtain ⟨rest', heq, -, -, -⟩ := (placeholderAt_eq_true_iff _ _ _ _).mp hi
            simp only [List.drop_zero] at heq
            injection heq with h1 h2
            exact hc h1
          | succ j =>
            rw [placeholderAt_cons_succ] at hi
            exact (ih rest name hrl).mpr ⟨j, hi⟩

/-! #### The scanner only inspects `w` on characters of the string -/
theorem takeWhile_congr_chars {p q : Char → Bool} :
    ∀ l : List Char, (∀ x ∈ l, p x = q x) → l.takeWhile p = l.takeWhile q := by
  intro l
  induction l with
  | nil => intro _; rfl
  | cons x xs ih =>
    intro h
    have hx := h x (List.mem_cons_self x xs)
    by_cases hp : p x
    · rw [List.takeWhile_cons_of_pos hp, List.takeWhile_cons_of_pos (hx ▸ hp),
          ih (fun y hy => h y (List.mem_cons_of_mem x hy))]
    · rw [List.takeWhile_cons_of_neg hp, List.takeWhile_cons_of_neg (by rw [← hx]; exact hp)]

theorem dropWhile_congr_chars {p q : Char → Bool} :
    ∀ l : List Char, (∀ x ∈ l, p x = q x) → l.dropWhile p = l.dropWhile q := by
  intro l h
  rw [dropWhile_eq_drop, dropWhile_eq_drop, takeWhile_congr_chars l h]

theorem takeName_congr {w₁ w₂ : Char → Bool} (l : List Char)
    (h : ∀ c ∈ l, w₁ c = w₂ c) : takeName w₁ l = takeName w₂ l := by
  cases l with
  | nil => rfl
  | cons c cs =>
    have hwd : ∀ x ∈ cs, wdot w₁ x = wdot w₂ x := by
      intro x hx
      simp [wdot, h x (List.mem_cons_of_mem c hx)]
    simp only [takeName, h c (List.mem_cons_self c cs),
      takeWhile_congr_chars cs hwd, dropWhile_congr_chars cs hwd]

theorem scanGo_congr {w₁ w₂ : Char → Bool} :
    ∀ (fuel : Nat) (l : List Char), (∀ c ∈ l, w₁ c = w₂ c) →
      scanGo w₁ fuel l = scanGo w₂ fuel l := by
  intro fuel
  induction fuel with
  | zero =>
    intro l _
    cases l <;> rfl
  | succ fuel ih =>
    intro l h
    cases l with
    | nil => rfl
    | cons c rest =>
      have hr : ∀ x ∈ rest, w₁ x = w₂ x := fun x hx => h x (List.mem_cons_of_mem c hx)
      by_cases hc : c = '$'
      · subst hc
        rw [show scanGo w₁ (fuel + 1) ('$' :: rest)
              = (match takeName w₁ rest with
                 | some (nm, rest2) => nm :: scanGo w₁ fuel rest2
                 | none => scanGo w₁ fuel rest) from by simp [scanGo],
            show scanGo w₂ (fuel + 1) ('$' :: rest)
              = (match takeName w₂ rest with
                 | some (nm, rest2) => nm :: scanGo w₂ fuel rest2
                 | none => scanGo w₂ fuel rest) from by simp [scanGo],
            takeName_congr rest hr]
        cases htn : takeName w₂ rest with
        | none =>
          show scanGo w₁ fuel rest = scanGo w₂ fuel rest
          exact ih rest hr
        | some pr =>
          obtain ⟨nm, rest2⟩ := pr
          have hr2 : ∀ x ∈ rest2, w₁ x = w₂ x := by
            intro x hx
            apply hr
            have h2 := (takeName_facts htn).2.2.1
            exact List.drop_subset _ _ (h2 ▸ hx)
          show nm :: scanGo w₁ fuel rest2 = nm :: scanGo w₂ fuel rest2
          rw [ih rest2 hr2]
      · simp only [scanGo, if_neg hc]
        exact ih rest hr

/-- C8: constructing a WML `FormatString` never fails, and (on ASCII text,
where Python's `\w` coincides with `[A-Za-z0-9_]`) its argument set
contains exactly the dotted identifiers — at least two characters from
`[A-Za-z0-9_.]`, starting with a word character — that follow a `$`
maximally; every other `$`-sequence or character is literal and
contributes no argument. -/
theorem wml_formatstring_parse_spec (w : Char → Bool)
    (hw : ∀ c, c.toNat < 128 → w c = asciiWordChar c)
    (l : List Char) (hl : ∀ c ∈ l, c.toNat < 128) (name : List Char) :
    name ∈ (FormatString.ofString w l).arguments
      ↔ ∃ i, placeholderAt asciiWordChar l i name = true := by
  rw [mem_arguments]
  unfold scanNames
  rw [scanGo_congr l.length l (fun c hc => hw c (hl c hc))]
  exact mem_scanGo_iff (by decide) l.length l name (le_refl _)

/-- Witness for C8: `"player.name"` is recognized (at position 6) in
`"Hello $player.name"`. -/
theorem wml_formatstring_parse_spec_witness :
    "player.name".toList
      ∈ (FormatString.ofString asciiWordChar "Hello $player.name".toList).arguments :=
  (wml_formatstring_parse_spec asciiWordChar (fun c _ => rfl)
    "Hello $player.name".toList (by decide) "player.name".toList).mpr ⟨6, by decide⟩

end Wmlvar

namespace WmlCheck

open Wmlvar

theorem count_nodup {α : Type} [DecidableEq α] {l : List α} (h : l.Nodup) (a : α) :
    l.count a = if a ∈ l then 1 else 0 := by
  by_cases hm : a ∈ l
  · have h1 : l.count a ≤ 1 := List.nodup_iff_count_le_one.mp h a
    have h2 : 0 < l.count a := List.count_pos_iff.mpr hm
    simp [hm]
    omega
  · simp [hm, List.count_eq_zero_of_not_mem hm]

theorem unknownVariable_injective (dstLoc srcLoc : List Char) :
    Function.Injective (fun k => WmlArgFinding.unknownVariable k dstLoc srcLoc) := by
  intro a b h
  simpa using h

theorem missingArgument_injective (dstLoc srcLoc : List Char) :
    Function.Injective (fun k => WmlArgFinding.missingArgument k dstLoc srcLoc) := by
  intro a b h
  simpa using h

/-- Core counting lemma for `check_args`, for any pair of format strings
with duplicate-free argument sets (as produced by the parser). -/
theorem check_args_counts (srcFmt dstFmt : FormatString) (srcLoc dstLoc : List Char)
    (ok : Bool) (hs : srcFmt.arguments.Nodup) (hd : dstFmt.arguments.Nodup) :
    (∀ k, (check_args srcLoc srcFmt dstLoc dstFmt ok).count
        (WmlArgFinding.unknownVariable k dstLoc srcLoc)
      = if k ∈ dstFmt.arguments ∧ k ∉ srcFmt.arguments then 1 else 0)
  ∧ (∀ k, (check_args srcLoc srcFmt dstLoc dstFmt ok).count
        (WmlArgFinding.missingArgument k dstLoc srcLoc)
      = if (k ∈ srcFmt.arguments ∧ k ∉ dstFmt.arguments)
           ∧ ¬((srcFmt.arguments.filter
                  (fun k => decide (k ∉ dstFmt.arguments))).length = 1 ∧ ok = true)
        then 1 else 0)
  ∧ ((∀ k, k ∈ srcFmt.arguments ↔ k ∈ dstFmt.arguments) →
      check_args srcLoc srcFmt dstLoc dstFmt ok = []) := by
  refine ⟨?_, ?_, ?_⟩
  · intro k
    unfold check_args
    rw [List.count_append]
    have hB : ∀ (l : List (List Char)),
        (l.map (fun k => WmlArgFinding.missingArgument k dstLoc srcLoc)).count
          (WmlArgFinding.unknownVariable k dstLoc srcLoc) = 0 := by
      intro l
      apply List.count_eq_zero_of_not_mem
      intro hmem
      obtain ⟨a, -, heq⟩ := List.mem_map.mp hmem
      exact WmlArgFinding.noConfusion heq
    rw [hB, Nat.add_zero,
        List.count_map_of_injective _ _ (unknownVariable_injective dstLoc srcLoc),
        (pySorted_perm _).count_eq,
        count_nodup (hd.filter _)]
    congr 1
    simp [List.mem_filter]
  · intro k
    unfold check_args
    rw [List.count_append]
    have hA : ((pySorted (dstFmt.arguments.filter
        (fun k => decide (k ∉ srcFmt.arguments)))).map
          (fun k => WmlArgFinding.unknownVariable k dstLoc srcLoc)).count
        (WmlArgFinding.missingArgument k dstLoc srcLoc) = 0 := by
      apply List.count_eq_zero_of_not_mem
      intro hmem
      obtain ⟨a, -, heq⟩ := List.mem_map.mp hmem
      exact WmlArgFinding.noConfusion heq
    rw [hA, Nat.zero_add]
    by_cases hcond : (srcFmt.arguments.filter
        (fun k => decide (k ∉ dstFmt.arguments))).length = 1 ∧ ok = true
    · rw [if_pos hcond]
      simp only [List.map_nil, List.count_nil]
      rw [if_neg]
      intro hcontra
      exact hcontra.2 hcond
    · rw [if_neg hcond,
          List.count_map_of_injective _ _ (missingArgument_injective dstLoc srcLoc),
          (pySorted_perm _).count_eq,
          count_nodup (hs.filter _)]
      have : (k ∈ srcFmt.arguments.filter (fun k => decide (k ∉ dstFmt.arguments)))
          ↔ ((k ∈ srcFmt.arguments ∧ k ∉ dstFmt.arguments) ∧ ¬((srcFmt.arguments.filter
              (fun k => decide (k ∉ dstFmt.arguments))).length = 1 ∧ ok = true)) := by
        rw [List.mem_filter]
        simp only [decide_eq_true_iff]
        exact ⟨fun h => ⟨h, hcond⟩, fun h => h.1⟩
      simp only [this]
  · intro h
    simp only [check_args]
    have h1 : dstFmt.arguments.filter (fun k => decide (k ∉ srcFmt.arguments)) = [] := by
      rw [List.filter_eq_nil_iff]
      intro a ha
      simp only [decide_eq_true_iff, Decidable.not_not]
      exact (h a).mpr ha
    have h2 : srcFmt.arguments.filter (fun k => decide (k ∉ dstFmt.arguments)) = [] := by
      rw [List.filter_eq_nil_iff]
      intro a ha
      simp only [decide_eq_true_iff, Decidable.not_not]
      exact (h a).mp ha
    rw [h1, h2]
    simp [pySorted, List.insertionSort]

/-- C1: for every message and every pair of parsed WML format strings,
`check_args` reports one `unknown-variable` finding for each argument
identifier in the translated text's argument set but not the original's,
one `missing-argument` finding for each identifier in the original's but
not the translation's — suppressed entirely when exactly one identifier is
missing and `omitted_int_conv_ok` is set — and no finding at all when the
two argument sets are equal. -/
theorem wml_check_args_finding_spec
    (w : Char → Bool) (sSrc sDst srcLoc dstLoc : List Char) (ok : Bool) :
    (∀ k, (check_args srcLoc (FormatString.ofString w sSrc) dstLoc
        (FormatString.ofString w sDst) ok).count
        (WmlArgFinding.unknownVariable k dstLoc srcLoc)
      = if k ∈ (FormatString.ofString w sDst).arguments
           ∧ k ∉ (FormatString.ofString w sSrc).arguments then 1 else 0)
  ∧ (∀ k, (check_args srcLoc (FormatString.ofString w sSrc) dstLoc
        (FormatString.ofString w sDst) ok).count
        (WmlArgFinding.missingArgument k dstLoc srcLoc)
      = if (k ∈ (FormatString.ofString w sSrc).arguments
           ∧ k ∉ (FormatString.ofString w sDst).arguments)
           ∧ ¬(((FormatString.ofString w sSrc).arguments.filter
                  (fun k => decide (k ∉ (FormatString.ofString w sDst).arguments))).length = 1
               ∧ ok = true)
        then 1 else 0)
  ∧ ((∀ k, k ∈ (FormatString.ofString w sSrc).arguments
        ↔ k ∈ (FormatString.ofString w sDst).arguments) →
      check_args srcLoc (FormatString.ofString w sSrc) dstLoc
        (FormatString.ofString w sDst) ok = []) :=
  check_args_counts (FormatString.ofString w sSrc) (FormatString.ofString w sDst)
    srcLoc dstLoc ok (arguments_nodup w sSrc) (arguments_nodup w sDst)

/-- Witness for C1, on the spec's own examples: source `"Hello
$player.name"` against translations `"$player.name, bonjour"` (no
finding), `"Bonjour"` (one missing-argument), and `"$player.name
$foo.bar"` (one unknown-variable). -/
theorem wml_check_args_finding_spec_witness :
    (check_args "msgid".toList (FormatString.ofString asciiWordChar "Hello $player.name".toList)
      "msgstr".toList (FormatString.ofString asciiWordChar "$player.name, bonjour".toList)
      false = [])
  ∧ ((check_args "msgid".toList (FormatString.ofString asciiWordChar "Hello $player.name".toList)
      "msgstr".toList (FormatString.ofString asciiWordChar "Bonjour".toList)
      false).count
      (WmlArgFinding.missingArgument "player.name".toList "msgstr".toList "msgid".toList) = 1)
  ∧ ((check_args "msgid".toList (FormatString.ofString asciiWordChar "Hello $player.name".toList)
      "msgstr".toList (FormatString.ofString asciiWordChar "$player.name $foo.bar".toList)
      false).count
      (WmlArgFinding.unknownVariable "foo.bar".toList "msgstr".toList "msgid".toList) = 1) := by
  refine ⟨?_, ?_, ?_⟩
  · exact (wml_check_args_finding_spec asciiWordChar "Hello $player.name".toList
      "$player.name, bonjour".toList "msgid".toList "msgstr".toList false).2.2
      (fun k => Iff.rfl)
  · have h := (wml_check_args_finding_spec asciiWordChar "Hello $player.name".toList
      "Bonjour".toList "msgid".toList "msgstr".toList false).2.1 "player.name".toList
    rw [if_pos (by decide)] at h
    exact h
  · have h := (wml_check_args_finding_spec asciiWordChar "Hello $player.name".toList
      "$player.name $foo.bar".toList "msgid".toList "msgstr".toList false).1 "foo.bar".toList
    rw [if_pos (by decide)] at h
    exact h

theorem filter_perm_of_set_eq {l₁ l₂ : List (List Char)} (p : List Char → Bool)
    (h₁ : l₁.Nodup) (h₂ : l₂.Nodup) (h : ∀ k, k ∈ l₁ ↔ k ∈ l₂) :
    (l₁.filter p).Perm (l₂.filter p) := by
  apply List.perm_of_nodup_nodup_toFinset_eq (h₁.filter p) (h₂.filter p)
  ext k
  simp [List.mem_filter, h k]

/-- C10: the findings of `check_args` depend only on the two deduplicated
argument-identifier sets: parsed strings whose placeholders differ in
order or multiplicity but denote equal argument sets are interchangeable
in either position; in particular a placeholder repeated in the source but
appearing once in the translation produces no finding. -/
theorem wml_check_args_set_extensional
    (w : Char → Bool) (ok : Bool) (s₁ s₂ d srcLoc dstLoc : List Char)
    (h : ∀ k, k ∈ (FormatString.ofString w s₁).arguments
        ↔ k ∈ (FormatString.ofString w s₂).arguments) :
    (check_args srcLoc (FormatString.ofString w s₁) dstLoc (FormatString.ofString w d) ok
      = check_args srcLoc (FormatString.ofString w s₂) dstLoc (FormatString.ofString w d) ok)
  ∧ (check_args srcLoc (FormatString.ofString w d) dstLoc (FormatString.ofString w s₁) ok
      = check_args srcLoc (FormatString.ofString w d) dstLoc (FormatString.ofString w s₂) ok)
  ∧ (check_args srcLoc (FormatString.ofString asciiWordChar "$ab $ab".toList)
      dstLoc (FormatString.ofString asciiWordChar "$ab".toList) ok = []) := by
  have hperm : ((FormatString.ofString w s₁).arguments.filter
        (fun k => decide (k ∉ (FormatString.ofString w d).arguments))).Perm
      ((FormatString.ofString w s₂).arguments.filter
        (fun k => decide (k ∉ (FormatString.ofString w d).arguments))) :=
    filter_perm_of_set_eq _ (arguments_nodup w s₁) (arguments_nodup w s₂) h
  have hsorted : pySorted ((FormatString.ofString w s₁).arguments.filter
        (fun k => decide (k ∉ (FormatString.ofString w d).arguments)))
      = pySorted ((FormatString.ofString w s₂).arguments.filter
        (fun k => decide (k ∉ (FormatString.ofString w d).arguments))) :=
    List.eq_of_perm_of_sorted
      ((pySorted_perm _).trans (hperm.trans (pySorted_perm _).symm))
      (List.sorted_insertionSort StrLeP _) (List.sorted_insertionSort StrLeP _)
  refine ⟨?_, ?_, ?_⟩
  · simp only [check_args]
    rw [hsorted, hperm.length_eq]
    have : ((FormatString.ofString w d).arguments.filter
          (fun k => decide (k ∉ (FormatString.ofString w s₁).arguments)))
        = ((FormatString.ofString w d).arguments.filter
          (fun k => decide (k ∉ (FormatString.ofString w s₂).arguments))) := by
      apply List.filter_congr
      intro k _
      simp [h k]
    rw [this]
  · simp only [check_args]
    have : ((FormatString.ofString w d).arguments.filter
          (fun k => decide (k ∉ (FormatString.ofString w s₁).arguments)))
        = ((FormatString.ofString w d).arguments.filter
          (fun k => decide (k ∉ (FormatString.ofString w s₂).arguments))) := by
      apply List.filter_congr
      intro k _
      simp [h k]
    rw [this, hsorted]
  · exact (check_args_counts _ _ _ _ ok
      (arguments_nodup asciiWordChar "$ab $ab".toList)
      (arguments_nodup asciiWordChar "$ab".toList)).2.2 (fun k => Iff.rfl)

/-- Witness for C10: the sources `"$x1 $y1"` and `"$y1 $x1"` have equal
argument sets (in different orders), so substituting one for the other
leaves the findings against the translation `"$x1"` unchanged. -/
theorem wml_check_args_set_extensional_witness :
    check_args "msgid".toList (FormatString.ofString asciiWordChar "$x1 $y1".toList)
      "msgstr".toList (FormatString.ofString asciiWordChar "$x1".toList) false
    = check_args "msgid".toList (FormatString.ofString asciiWordChar "$y1 $x1".toList)
      "msgstr".toList (FormatString.ofString asciiWordChar "$x1".toList) false :=
  (wml_check_args_set_extensional asciiWordChar false
    "$x1 $y1".toList "$y1 $x1".toList "$x1".toList
    "msgid".toList "msgstr".toList
    (by
      intro k
      show k ∈ ["x1".toList, "y1".toList] ↔ k ∈ ["y1".toList, "x1".toList]
      simp only [List.mem_cons, List.not_mem_nil, or_false]
      tauto)).1

end WmlCheck

namespace Gettext

theorem foldl_digits_ge {a : Nat} (ha : 1 ≤ a) :
    ∀ ds : List Char,
      1 ≤ ds.foldl (fun acc c => 10 * acc + (c.toNat - '0'.toNat)) a := by
  intro ds
  induction ds generalizing a with
  | nil => exact ha
  | cons c cs ih =>
    apply ih
    show 1 ≤ 10 * a + (c.toNat - '0'.toNat)
    omega

theorem natOfDigits_pos {d : Char} (hd : '1' ≤ d) (ds : List Char) :
    1 ≤ natOfDigits (d :: ds) := by
  unfold natOfDigits
  simp only [List.foldl_cons]
  apply foldl_digits_ge
  show 1 ≤ 10 * 0 + (d.toNat - '0'.toNat)
  have h1 : '1'.toNat ≤ d.toNat := hd
  have h0 : '1'.toNat = 49 := by decide
  have h0' : '0'.toNat = 48 := by decide
  omega

theorem takeWhile_append_all {p : Char → Bool} :
    ∀ {l₁ : List Char} (l₂ : List Char), (∀ c ∈ l₁, p c = true) →
      (l₁ ++ l₂).takeWhile p = l₁ ++ l₂.takeWhile p := by
  intro l₁
  induction l₁ with
  | nil => intro l₂ _; rfl
  | cons x xs ih =>
    intro l₂ h
    rw [List.cons_append, List.takeWhile_cons_of_pos (h x (List.mem_cons_self x xs)),
        ih l₂ (fun c hc => h c (List.mem_cons_of_mem x hc)), List.cons_append]

theorem dropWhile_append_all {p : Char → Bool} :
    ∀ {l₁ : List Char} (l₂ : List Char), (∀ c ∈ l₁, p c = true) →
      (l₁ ++ l₂).dropWhile p = l₂.dropWhile p := by
  intro l₁
  induction l₁ with
  | nil => intro l₂ _; rfl
  | cons x xs ih =>
    intro l₂ h
    rw [List.cons_append, List.dropWhile_cons_of_pos (h x (List.mem_cons_self x xs)),
        ih l₂ (fun c hc => h c (List.mem_cons_of_mem x hc))]

theorem takeWhile_all_self {p : Char → Bool} {l : List Char}
    (h : ∀ c ∈ l, p c = true) : l.takeWhile p = l := by
  have := @takeWhile_append_all p l [] h
  simpa using this

theorem dropWhile_all_self {p : Char → Bool} {l : List Char}
    (h : ∀ c ∈ l, p c = true) : l.dropWhile p = [] := by
  have := @dropWhile_append_all p l [] h
  simpa using this

theorem matches_of_parts {s : List Char} {d : Char} {rest s4 semi w3 : List Char}
    (hpre : ("nplurals=".toList).isPrefixOf (s.dropWhile pySpace) = true)
    (hdrop : (s.dropWhile pySpace).drop 9 = d :: rest)
    (hd : '1' ≤ d ∧ d ≤ '9')
    (hsemi : rest.dropWhile isDigitChar = ';' :: s4)
    (hppre : ("plural=".toList).isPrefixOf (s4.dropWhile pySpace) = true)
    (hne : ((s4.dropWhile pySpace).drop 7).takeWhile (fun c => !decide (c = ';')) ≠ [])
    (htail : ((s4.dropWhile pySpace).drop 7).dropWhile (fun c => !decide (c = ';'))
        = semi ++ w3)
    (hsemi2 : semi = [] ∨ semi = [';'])
    (hw3 : ∀ c ∈ w3, pySpace c = true) :
    MatchesPluralForms s := by
  obtain ⟨t, hnp⟩ := List.isPrefixOf_iff_prefix.mp hpre
  have ht9 : (s.dropWhile pySpace).drop 9 = t := by
    rw [← hnp]
    have h9 : ("nplurals=".toList).length = 9 := rfl
    rw [← h9]
    exact List.drop_left _ _
  obtain ⟨t2, hplu⟩ := List.isPrefixOf_iff_prefix.mp hppre
  have ht7 : (s4.dropWhile pySpace).drop 7 = t2 := by
    rw [← hplu]
    have h7 : ("plural=".toList).length = 7 := rfl
    rw [← h7]
    exact List.drop_left _ _
  rw [ht7] at hne htail
  have ht : t = d :: rest := ht9.symm.trans hdrop
  have hrest : rest = rest.takeWhile isDigitChar ++ (';' :: s4) := by
    conv_lhs => rw [← List.takeWhile_append_dropWhile isDigitChar rest]
    rw [hsemi]
  have hs4 : s4 = s4.takeWhile pySpace ++ ("plural=".toList ++ t2) := by
    conv_lhs => rw [← List.takeWhile_append_dropWhile pySpace s4]
    rw [hplu]
  have ht2 : t2 = t2.takeWhile (fun c => !decide (c = ';')) ++ (semi ++ w3) := by
    conv_lhs => rw [← List.takeWhile_append_dropWhile (fun c => !decide (c = ';')) t2]
    rw [htail]
  refine ⟨s.takeWhile pySpace, d, rest.takeWhile isDigitChar, s4.takeWhile pySpace,
    t2.takeWhile (fun c => !decide (c = ';')), semi, w3, ?_, ?_, hd, ?_, ?_, ?_, ?_,
    hsemi2, hw3⟩
  · conv_lhs =>
      rw [← List.takeWhile_append_dropWhile pySpace s, ← hnp, ht, hrest, hs4, ht2]
    simp [List.append_assoc]
  · exact fun c hc => List.mem_takeWhile_imp hc
  · exact fun c hc => List.mem_takeWhile_imp hc
  · exact fun c hc => List.mem_takeWhile_imp hc
  · exact hne
  · intro c hc
    have := List.mem_takeWhile_imp hc
    simpa using this

theorem matchPluralForms_sound {s g1 g2 : List Char}
    (h : matchPluralForms s = some (g1, g2)) :
    MatchesPluralForms s ∧ ∃ d ds, g1 = d :: ds ∧ ('1' ≤ d ∧ d ≤ '9') := by
  unfold matchPluralForms at h
  split at h
  next hpre =>
    split at h
    next => exact Option.noConfusion h
    next x d rest hdrop =>
      split at h
      next hd =>
        have hd' : '1' ≤ d ∧ d ≤ '9' := by
          simpa [Bool.and_eq_true, decide_eq_true_iff] using hd
        split at h
        next x2 s4 hsemi =>
          split at h
          next hppre =>
            split at h
            next => exact Option.noConfusion h
            next hnemp =>
              have hne : ((s4.dropWhile pySpace).drop 7).takeWhile
                  (fun c => !decide (c = ';')) ≠ [] := by
                simpa using hnemp
              split at h
              next x3 htail =>
                injection h with h
                injection h with hg1 hg2
                refine ⟨?_, d, rest.takeWhile isDigitChar, hg1.symm, hd'⟩
                exact matches_of_parts hpre hdrop hd' hsemi hppre hne
                  (by rw [htail]; rfl) (Or.inl rfl) (by intro c hc; cases hc)
              next x3 tail2 htail =>
                split at h
                next hall =>
                  injection h with h
                  injection h with hg1 hg2
                  refine ⟨?_, d, rest.takeWhile isDigitChar, hg1.symm, hd'⟩
                  exact matches_of_parts hpre hdrop hd' hsemi hppre hne
                    (by rw [htail]; rfl) (Or.inr rfl)
                    (fun c hc => List.all_eq_true.mp hall c hc)
                next => exact Option.noConfusion h
              next x3 htail => exact Option.noConfusion h
          next => exact Option.noConfusion h
        next x2 hsemi => exact Option.noConfusion h
      next => exact Option.noConfusion h
  next => exact Option.noConfusion h

theorem matchPluralForms_complete {s : List Char} (hm : MatchesPluralForms s) :
    ∃ g, matchPluralForms s = some g := by
  obtain ⟨w1, d, ds, w2, body, semi, w3, hs, hw1, hd, hds, hw2, hbody_ne, hbody_ns,
    hsemi, hw3⟩ := hm
  subst hs
  simp only [List.append_assoc, List.cons_append, List.singleton_append, List.nil_append]
  have hpred : ∀ c ∈ body, (fun c => !decide (c = ';')) c = true := by
    intro c hc
    simp [hbody_ns c hc]
  have hw3ns : ∀ c ∈ w3, (fun c => !decide (c = ';')) c = true := by
    intro c hc
    have hcs := hw3 c hc
    simp only [Bool.not_eq_true', decide_eq_false_iff_not]
    intro he
    subst he
    exact absurd hcs (by decide)
  have e1 : (w1 ++ ("nplurals=".toList ++ (d :: (ds ++ ';' :: (w2 ++ ("plural=".toList
      ++ (body ++ (semi ++ w3)))))))).dropWhile pySpace
      = "nplurals=".toList ++ (d :: (ds ++ ';' :: (w2 ++ ("plural=".toList
      ++ (body ++ (semi ++ w3)))))) := by
    rw [dropWhile_append_all _ hw1]
    exact List.dropWhile_cons_of_neg (by decide)
  unfold matchPluralForms
  rw [e1]
  rw [if_pos (List.isPrefixOf_iff_prefix.mpr (List.prefix_append _ _))]
  have e9 : ("nplurals=".toList ++ (d :: (ds ++ ';' :: (w2 ++ ("plural=".toList
      ++ (body ++ (semi ++ w3))))))).drop 9
      = d :: (ds ++ ';' :: (w2 ++ ("plural=".toList ++ (body ++ (semi ++ w3))))) := by
    have h9 : ("nplurals=".toList).length = 9 := rfl
    rw [← h9]
    exact List.drop_left _ _
  rw [e9]
  simp only []
  rw [if_pos (show ('1' ≤ d && d ≤ '9') = true by simp [hd.1, hd.2])]
  have e2 : (ds ++ ';' :: (w2 ++ ("plural=".toList ++ (body ++ (semi
      ++ w3))))).dropWhile isDigitChar
      = ';' :: (w2 ++ ("plural=".toList ++ (body ++ (semi ++ w3)))) := by
    rw [dropWhile_append_all _ hds]
    exact List.dropWhile_cons_of_neg (by decide)
  rw [e2]
  simp only []
  have e3 : (w2 ++ ("plural=".toList ++ (body ++ (semi ++ w3)))).dropWhile pySpace
      = "plural=".toList ++ (body ++ (semi ++ w3)) := by
    rw [dropWhile_append_all _ hw2]
    exact List.dropWhile_cons_of_neg (by decide)
  rw [e3]
  rw [if_pos (List.isPrefixOf_iff_prefix.mpr (List.prefix_append _ _))]
  have e7 : ("plural=".toList ++ (body ++ (semi ++ w3))).drop 7 = body ++ (semi ++ w3) := by
    have h7 : ("plural=".toList).length = 7 := rfl
    rw [← h7]
    exact List.drop_left _ _
  rw [e7]
  rcases hsemi with hse | hse
  · subst hse
    simp only [List.nil_append]
    have et : (body ++ w3).takeWhile (fun c => !decide (c = ';')) = body ++ w3 :=
      takeWhile_all_self (by
        intro c hc
        rcases List.mem_append.mp hc with hc | hc
        · exact hpred c hc
        · exact hw3ns c hc)
    have ed : (body ++ w3).dropWhile (fun c => !decide (c = ';')) = [] :=
      dropWhile_all_self (by
        intro c hc
        rcases List.mem_append.mp hc with hc | hc
        · exact hpred c hc
        · exact hw3ns c hc)
    rw [et, ed]
    rw [if_neg (by simp [List.isEmpty_eq_false, hbody_ne])]
    exact ⟨_, rfl⟩
  · subst hse
    simp only [List.singleton_append]
    have et : (body ++ ';' :: w3).takeWhile (fun c => !decide (c = ';'))
        = body := by
      rw [takeWhile_append_all _ hpred, List.takeWhile_cons_of_neg (by simp),
        List.append_nil]
    have ed : (body ++ ';' :: w3).dropWhile (fun c => !decide (c = ';'))
        = ';' :: w3 := by
      rw [dropWhile_append_all _ hpred]
      exact List.dropWhile_cons_of_neg (by simp)
    rw [et, ed]
    rw [if_neg (by simp [List.isEmpty_eq_false, hbody_ne])]
    simp only []
    rw [if_pos (List.all_eq_true.mpr hw3)]
    exact ⟨_, rfl⟩

/-- C4: `parse_plural_forms(s)` raises `PluralFormsSyntaxError` exactly
when `s` fails to match `^\s*nplurals=([1-9][0-9]*);\s*plural=([^;]+);?\s*$`
or the captured plural-expression group fails to parse; on success it
returns `(n, expr)` with `n ≥ 1` (the count group is `[1-9][0-9]*`).
Stated for an arbitrary expression parser `ppe` standing for
`parse_plural_expression`. -/
theorem parse_plural_forms_spec (E : Type) (ppe : List Char → Option E) (s : List Char) :
    (parse_plural_forms ppe s = none
      ↔ (¬MatchesPluralForms s
          ∨ ∃ g1 g2, matchPluralForms s = some (g1, g2) ∧ ppe g2 = none))
  ∧ (∀ n e, parse_plural_forms ppe s = some (n, e) → 1 ≤ n) := by
  constructor
  · unfold parse_plural_forms
    cases hmm : matchPluralForms s with
    | none =>
      simp only []
      constructor
      · intro _
        left
        intro hmatch
        obtain ⟨g, hg⟩ := matchPluralForms_complete hmatch
        rw [hmm] at hg
        exact Option.noConfusion hg
      · intro _
        trivial
    | some pr =>
      obtain ⟨g1, g2⟩ := pr
      simp only []
      cases hp : ppe g2 with
      | none =>
        simp only []
        exact ⟨fun _ => Or.inr ⟨g1, g2, rfl, hp⟩, fun _ => trivial⟩
      | some e =>
        simp only []
        constructor
        · intro hcontra
          exact Option.noConfusion hcontra
        · rintro (hnm | ⟨g1', g2', hg, hp'⟩)
          · exact absurd (matchPluralForms_sound hmm).1 hnm
          · injection hg with hg
            injection hg with hga hgb
            rw [← hgb] at hp'
            rw [hp'] at hp
            exact Option.noConfusion hp
  · intro n e h
    unfold parse_plural_forms at h
    cases hmm : matchPluralForms s with
    | none =>
      rw [hmm] at h
      exact Option.noConfusion h
    | some pr =>
      obtain ⟨g1, g2⟩ := pr
      rw [hmm] at h
      simp only [] at h
      cases hp : ppe g2 with
      | none =>
        rw [hp] at h
        exact Option.noConfusion h
      | some e' =>
        rw [hp] at h
        injection h with h
        injection h with hn he
        obtain ⟨-, d, ds, hg1, hd1, -⟩ := matchPluralForms_sound hmm
        rw [← hn, hg1]
        exact natOfDigits_pos hd1 ds

theorem findIfelseSplit_shrink {s a b r : List Char}
    (h : findIfelseSplit s = some (a, b, r)) : r.length < s.length := by
  unfold findIfelseSplit at h
  split at h
  next r2 hdrop =>
    split at h
    next r4 hdrop2 =>
      injection h with h
      have e1 : s.length = (s.takeWhile (fun c => !decide (c = '?'))).length
          + (r2.length + 1) := by
        conv_lhs => rw [← List.takeWhile_append_dropWhile
          (fun c => !decide (c = '?')) s, hdrop]
        simp [List.length_append]
      have e2 : r2.length = (r2.takeWhile (fun c => !decide (c = ':'))).length
          + (r4.length + 1) := by
        conv_lhs => rw [← List.takeWhile_append_dropWhile
          (fun c => !decide (c = ':')) r2, hdrop2]
        simp [List.length_append]
      have hr : r = r4 := by
        injection h with h1 h
        injection h with h2 h3
        exact h3.symm
      rw [hr]
      omega
    next hne => exact Option.noConfusion h
  next hne => exact Option.noConfusion h

theorem substGo_fuel :
    ∀ (f1 f2 : Nat) (s : List Char), s.length ≤ f1 → s.length ≤ f2 →
      substGo f1 s = substGo f2 s := by
  intro f1
  induction f1 with
  | zero =>
    intro f2 s h1 h2
    have hnil : s = [] := List.length_eq_zero.mp (Nat.le_zero.mp h1)
    subst hnil
    cases f2 with
    | zero => rfl
    | succ f2 => rfl
  | succ f1 ih =>
    intro f2 s h1 h2
    cases f2 with
    | zero =>
      have hnil : s = [] := List.length_eq_zero.mp (Nat.le_zero.mp h2)
      subst hnil
      rfl
    | succ f2 =>
      show (match findIfelseSplit s with
        | none => s
        | some (a, b, r) => '(' :: (b ++ (" if ".toList ++ (a ++ (" else ".toList
            ++ (substGo f1 r ++ [')']))))))
        = (match findIfelseSplit s with
        | none => s
        | some (a, b, r) => '(' :: (b ++ (" if ".toList ++ (a ++ (" else ".toList
            ++ (substGo f2 r ++ [')']))))))
      cases hf : findIfelseSplit s with
      | none => rfl
      | some pr =>
        obtain ⟨a, b, r⟩ := pr
        have hlt := findIfelseSplit_shrink hf
        simp only []
        rw [ih f2 r (by omega) (by omega)]

/-- The recursion equation of `_subst_ifelse` as a string function. -/
theorem substIfelse_eq (s : List Char) :
    substIfelse s = match findIfelseSplit s with
      | none => s
      | some (a, b, r) => '(' :: (b ++ (" if ".toList ++ (a ++ (" else ".toList
          ++ (substIfelse r ++ [')']))))) := by
  unfold substIfelse
  cases hs : s.length with
  | zero =>
    have hnil : s = [] := List.length_eq_zero.mp hs
    subst hnil
    rfl
  | succ k =>
    show (match findIfelseSplit s with
      | none => s
      | some (a, b, r) => '(' :: (b ++ (" if ".toList ++ (a ++ (" else ".toList
          ++ (substGo k r ++ [')']))))))
      = _
    cases hf : findIfelseSplit s with
    | none => rfl
    | some pr =>
      obtain ⟨a, b, r⟩ := pr
      have hlt := findIfelseSplit_shrink hf
      simp only []
      rw [substGo_fuel k r.length r (by omega) (le_refl _)]

theorem findIfelseSplit_parts {a b r : List Char} (ha : ∀ x ∈ a, ¬x = '?')
    (hb : ∀ x ∈ b, ¬x = ':') :
    findIfelseSplit (a ++ '?' :: (b ++ ':' :: r)) = some (a, b, r) := by
  unfold findIfelseSplit
  have e1 : (a ++ '?' :: (b ++ ':' :: r)).dropWhile (fun c => !decide (c = '?'))
      = '?' :: (b ++ ':' :: r) := by
    rw [dropWhile_append_all _ (fun x hx => by simp [ha x hx])]
    exact List.dropWhile_cons_of_neg (by simp)
  have e2 : (a ++ '?' :: (b ++ ':' :: r)).takeWhile (fun c => !decide (c = '?')) = a := by
    rw [takeWhile_append_all _ (fun x hx => by simp [ha x hx]),
      List.takeWhile_cons_of_neg (by simp), List.append_nil]
  rw [e1]
  simp only []
  have e3 : (b ++ ':' :: r).dropWhile (fun c => !decide (c = ':')) = ':' :: r := by
    rw [dropWhile_append_all _ (fun x hx => by simp [hb x hx])]
    exact List.dropWhile_cons_of_neg (by simp)
  have e4 : (b ++ ':' :: r).takeWhile (fun c => !decide (c = ':')) = b := by
    rw [takeWhile_append_all _ (fun x hx => by simp [hb x hx]),
      List.takeWhile_cons_of_neg (by simp), List.append_nil]
  rw [e3]
  simp only []
  rw [e2, e4]

theorem findIfelseSplit_none {e : List Char} (he : ∀ x ∈ e, ¬x = '?') :
    findIfelseSplit e = none := by
  unfold findIfelseSplit
  rw [dropWhile_all_self (fun x hx => by simp [he x hx])]

/-- C5: the ternary rewrite is right-associative — for any well-formed
chain, `a?b:c?d:e` rewrites to the Python conditional
`(b if a else (d if c else e))`, i.e. `a?b:(c?d:e)` — and the expression
of `"nplurals=3; plural=n==0?0:n==1?1:2;"` evaluates to 0, 1, 2, 2 at
n = 0, 1, 2, 3. -/
theorem plural_ternary_right_assoc :
    (∀ a b c d e : List Char, (∀ x ∈ a, ¬x = '?') → (∀ x ∈ b, ¬x = ':') →
      (∀ x ∈ c, ¬x = '?') → (∀ x ∈ d, ¬x = ':') → (∀ x ∈ e, ¬x = '?') →
      substIfelse (a ++ '?' :: (b ++ ':' :: (c ++ '?' :: (d ++ ':' :: e))))
        = '(' :: (b ++ (" if ".toList ++ (a ++ (" else ".toList
          ++ (('(' :: (d ++ (" if ".toList ++ (c ++ (" else ".toList
            ++ (e ++ [')'])))))) ++ [')']))))))
  ∧ pluralFormsEval "nplurals=3; plural=n==0?0:n==1?1:2;".toList 0 = some (.ok 0)
  ∧ pluralFormsEval "nplurals=3; plural=n==0?0:n==1?1:2;".toList 1 = some (.ok 1)
  ∧ pluralFormsEval "nplurals=3; plural=n==0?0:n==1?1:2;".toList 2 = some (.ok 2)
  ∧ pluralFormsEval "nplurals=3; plural=n==0?0:n==1?1:2;".toList 3 = some (.ok 2) := by
  refine ⟨?_, rfl, rfl, rfl, rfl⟩
  intro a b c d e ha hb hc hd he
  rw [substIfelse_eq, findIfelseSplit_parts ha hb]
  simp only []
  rw [substIfelse_eq, findIfelseSplit_parts hc hd]
  simp only []
  rw [substIfelse_eq, findIfelseSplit_none he]

/-- Witness for C5: the rewrite of the chain `n==0?0:n==1?1:2` itself. -/
theorem plural_ternary_right_assoc_witness :
    substIfelse ("n==0".toList ++ '?' :: ("0".toList ++ ':' :: ("n==1".toList
        ++ '?' :: ("1".toList ++ ':' :: "2".toList))))
      = '(' :: ("0".toList ++ (" if ".toList ++ ("n==0".toList ++ (" else ".toList
          ++ (('(' :: ("1".toList ++ (" if ".toList ++ ("n==1".toList
            ++ (" else ".toList ++ ("2".toList ++ [')'])))))) ++ [')']))))) :=
  plural_ternary_right_assoc.1 _ _ _ _ _
    (by decide) (by decide) (by decide) (by decide) (by decide)

/-- Witness for C4: `"nplurals=2; plural=n != 1;"` parses, and the
declared count 2 satisfies the invariant `n ≥ 1` via the theorem. -/
theorem parse_plural_forms_spec_witness :
    parse_plural_forms parse_plural_expression "nplurals=2; plural=n != 1;".toList
      = some (2, PyExpr.ne PyExpr.var (PyExpr.lit 1))
    ∧ 1 ≤ 2 := by
  constructor
  · rfl
  · exact (parse_plural_forms_spec PyExpr parse_plural_expression
      "nplurals=2; plural=n != 1;".toList).2 2 (PyExpr.ne PyExpr.var (PyExpr.lit 1)) rfl

end Gettext

namespace Check

open Gettext (ArithErr)

/-- One unfolding step of the sampling loop. -/
theorem sampleGo_succ (n : Nat) (expr : Nat → Except ArithErr Int)
    (lc : Option (Nat → Except ArithErr Int)) (hp : Bool)
    (i fuel : Nat) (p : Pim) (u : Bool) :
    sampleGo n expr lc hp i (fuel + 1) p u
      = match expr i with
        | Except.error k => ([PluralFinding.arithmeticError hp k i], none)
        | Except.ok fi =>
          if (n : Int) ≤ fi then ([PluralFinding.codomainWitness hp i fi n], none)
          else
            match lc with
            | none => sampleGo n expr lc hp (i + 1) fuel (pimAdd p fi i) u
            | some l =>
              match l i with
              | Except.error k => ([PluralFinding.arithmeticError hp k i], none)
              | Except.ok gi =>
                if fi ≠ gi ∧ u = false then
                  ((PluralFinding.unusualPluralForms hp)
                      :: (sampleGo n expr lc hp (i + 1) fuel (pimAdd p fi i) true).1,
                    (sampleGo n expr lc hp (i + 1) fuel (pimAdd p fi i) true).2)
                else sampleGo n expr lc hp (i + 1) fuel (pimAdd p fi i) u := rfl

theorem sampleGo_congr (n : Nat) (expr expr2 : Nat → Except ArithErr Int)
    (lc : Option (Nat → Except ArithErr Int)) (hp : Bool) :
    ∀ (fuel i : Nat) (p : Pim) (u : Bool),
      (∀ j, j < fuel → expr (i + j) = expr2 (i + j)) →
      sampleGo n expr lc hp i fuel p u = sampleGo n expr2 lc hp i fuel p u := by
  intro fuel
  induction fuel with
  | zero => intro i p u _; rfl
  | succ fuel ih =>
    intro i p u h
    have h0 : expr i = expr2 i := by
      have := h 0 (Nat.succ_pos fuel)
      simpa using this
    have hs : ∀ j, j < fuel → expr ((i + 1) + j) = expr2 ((i + 1) + j) := by
      intro j hj
      have := h (j + 1) (by omega)
      rwa [show i + (j + 1) = (i + 1) + j from by omega] at this
    rw [sampleGo_succ, sampleGo_succ, h0]
    cases expr2 i with
    | error k => rfl
    | ok fi =>
      simp only []
      by_cases hge : (n : Int) ≤ fi
      · rw [if_pos hge, if_pos hge]
      · rw [if_neg hge, if_neg hge]
        cases lc with
        | none => exact ih (i + 1) (pimAdd p fi i) u hs
        | some l =>
          simp only []
          cases hli : l i with
          | error k => rfl
          | ok gi =>
            simp only []
            by_cases hcond : fi ≠ gi ∧ u = false
            · rw [if_pos hcond, if_pos hcond, ih (i + 1) (pimAdd p fi i) true hs]
            · rw [if_neg hcond, if_neg hcond]
              exact ih (i + 1) (pimAdd p fi i) u hs

theorem sampleGo_codomain_stop (n : Nat) (expr : Nat → Except ArithErr Int) (hp : Bool) :
    ∀ (k fuel i : Nat) (p : Pim) (u : Bool) (v : Int),
      k < fuel → (∀ j, j < k → okLt n (expr (i + j)) = true) →
      expr (i + k) = .ok v → (n : Int) ≤ v →
      sampleGo n expr none hp i fuel p u = ([.codomainWitness hp (i + k) v n], none) := by
  intro k
  induction k with
  | zero =>
    intro fuel i p u v hk _ hv hge
    obtain ⟨fuel', rfl⟩ : ∃ f, fuel = f + 1 := ⟨fuel - 1, by omega⟩
    rw [sampleGo_succ, show expr i = .ok v from by simpa using hv]
    simp only []
    rw [if_pos hge]
    simp
  | succ k ih =>
    intro fuel i p u v hk hbelow hv hge
    obtain ⟨fuel', rfl⟩ : ∃ f, fuel = f + 1 := ⟨fuel - 1, by omega⟩
    have h0 : okLt n (expr i) = true := by
      have := hbelow 0 (Nat.succ_pos k)
      simpa using this
    obtain ⟨v0, hv0, hlt0⟩ : ∃ v0, expr i = .ok v0 ∧ v0 < (n : Int) := by
      unfold okLt at h0
      cases hei : expr i with
      | error e => rw [hei] at h0; exact absurd h0 (by simp)
      | ok v0 => rw [hei] at h0; exact ⟨v0, rfl, by simpa using h0⟩
    rw [sampleGo_succ, hv0]
    simp only []
    rw [if_neg (by omega)]
    have := ih fuel' (i + 1) (pimAdd p v0 i) u v (by omega)
      (fun j hj => by
        have := hbelow (j + 1) (by omega)
        rwa [show i + (j + 1) = (i + 1) + j from by omega] at this)
      (by rwa [show (i + 1) + k = i + (k + 1) from by omega])
      hge
    rw [this, show (i + 1) + k = i + (k + 1) from by omega]

theorem sampleGo_error_stop (n : Nat) (expr : Nat → Except ArithErr Int) (hp : Bool) :
    ∀ (k fuel i : Nat) (p : Pim) (u : Bool) (e : ArithErr),
      k < fuel → (∀ j, j < k → okLt n (expr (i + j)) = true) →
      expr (i + k) = .error e →
      sampleGo n expr none hp i fuel p u = ([.arithmeticError hp e (i + k)], none) := by
  intro k
  induction k with
  | zero =>
    intro fuel i p u e hk _ hv
    obtain ⟨fuel', rfl⟩ : ∃ f, fuel = f + 1 := ⟨fuel - 1, by omega⟩
    rw [sampleGo_succ, show expr i = .error e from by simpa using hv]
    simp
  | succ k ih =>
    intro fuel i p u e hk hbelow hv
    obtain ⟨fuel', rfl⟩ : ∃ f, fuel = f + 1 := ⟨fuel - 1, by omega⟩
    have h0 : okLt n (expr i) = true := by
      have := hbelow 0 (Nat.succ_pos k)
      simpa using this
    obtain ⟨v0, hv0, hlt0⟩ : ∃ v0, expr i = .ok v0 ∧ v0 < (n : Int) := by
      unfold okLt at h0
      cases hei : expr i with
      | error e => rw [hei] at h0; exact absurd h0 (by simp)
      | ok v0 => rw [hei] at h0; exact ⟨v0, rfl, by simpa using h0⟩
    rw [sampleGo_succ, hv0]
    simp only []
    rw [if_neg (by omega)]
    have := ih fuel' (i + 1) (pimAdd p v0 i) u e (by omega)
      (fun j hj => by
        have := hbelow (j + 1) (by omega)
        rwa [show i + (j + 1) = (i + 1) + j from by omega] at this)
      (by rwa [show (i + 1) + k = i + (k + 1) from by omega])
    rw [this, show (i + 1) + k = i + (k + 1) from by omega]

theorem sampleGo_retain_iff (n : Nat) (expr : Nat → Except ArithErr Int) (hp : Bool) :
    ∀ (fuel i : Nat) (p : Pim) (u : Bool),
      ((sampleGo n expr none hp i fuel p u).2.isSome = true
        ↔ ∀ j, j < fuel → okLt n (expr (i + j)) = true) := by
  intro fuel
  induction fuel with
  | zero =>
    intro i p u
    simp [sampleGo]
  | succ fuel ih =>
    intro i p u
    rw [sampleGo_succ]
    cases hei : expr i with
    | error e =>
      simp only [Option.isSome_none, Bool.false_eq_true, false_iff]
      intro hall
      have := hall 0 (Nat.succ_pos fuel)
      rw [Nat.add_zero, hei] at this
      exact absurd this (by simp [okLt])
    | ok fi =>
      simp only []
      by_cases hge : (n : Int) ≤ fi
      · rw [if_pos hge]
        simp only [Option.isSome_none, Bool.false_eq_true, false_iff]
        intro hall
        have := hall 0 (Nat.succ_pos fuel)
        rw [Nat.add_zero, hei] at this
        unfold okLt at this
        simp only [decide_eq_true_iff] at this
        omega
      · rw [if_neg hge]
        rw [ih (i + 1) (pimAdd p fi i) u]
        constructor
        · intro h j hj
          cases j with
          | zero =>
            rw [Nat.add_zero, hei]
            unfold okLt
            simp only [decide_eq_true_iff]
            omega
          | succ j =>
            have := h j (by omega)
            rwa [show (i + 1) + j = i + (j + 1) from by omega] at this
        · intro h j hj
          have := h (j + 1) (by omega)
          rwa [show i + (j + 1) = (i + 1) + j from by omega] at this

theorem sampleGo_no_range (n : Nat) (expr : Nat → Except ArithErr Int)
    (lc : Option (Nat → Except ArithErr Int)) (hp : Bool) :
    ∀ (fuel i : Nat) (p : Pim) (u : Bool),
      ((sampleGo n expr lc hp i fuel p u).1).countP isRangeFinding = 0 := by
  intro fuel
  induction fuel with
  | zero => intro i p u; rfl
  | succ fuel ih =>
    intro i p u
    rw [sampleGo_succ]
    cases hei : expr i with
    | error e => simp [isRangeFinding]
    | ok fi =>
      simp only []
      by_cases hge : (n : Int) ≤ fi
      · rw [if_pos hge]
        simp [isRangeFinding]
      · rw [if_neg hge]
        cases lc with
        | none => exact ih (i + 1) (pimAdd p fi i) u
        | some l =>
          simp only []
          cases hli : l i with
          | error e => simp [isRangeFinding]
          | ok gi =>
            simp only []
            by_cases hcond : fi ≠ gi ∧ u = false
            · rw [if_pos hcond]
              simp only [List.countP_cons, isRangeFinding]
              rw [ih (i + 1) (pimAdd p fi i) true]
              simp
            · rw [if_neg hcond]
              exact ih (i + 1) (pimAdd p fi i) u

/-- C2: the sampling analysis evaluates the expression at exactly the
points 0..199 (extensionally: it depends on no other value of the
expression); at the first index whose value reaches `n` it reports the
codomain-error finding carrying the witness `(i, value, n)` and stops;
and the preimage map survives the loop if and only if all 200 points
evaluate without arithmetic error and below `n`. -/
theorem check_plurals_sampling_spec (n : Nat) (expr : Nat → Except ArithErr Int)
    (hp : Bool) :
    (∀ expr2 : Nat → Except ArithErr Int, (∀ i, i < 200 → expr i = expr2 i) →
        samplingLoop n expr none hp = samplingLoop n expr2 none hp)
  ∧ (∀ i v, i < 200 → (∀ j, j < i → okLt n (expr j) = true) →
        expr i = .ok v → (n : Int) ≤ v →
        samplingLoop n expr none hp = ([.codomainWitness hp i v n], none))
  ∧ ((samplingLoop n expr none hp).2.isSome = true
        ↔ ∀ i, i < 200 → okLt n (expr i) = true) := by
  refine ⟨?_, ?_, ?_⟩
  · intro expr2 h
    exact sampleGo_congr n expr expr2 none hp codomain_limit 0 [] false
      (fun j hj => by simpa using h j hj)
  · intro i v hi hbelow hv hge
    have := sampleGo_codomain_stop n expr hp i codomain_limit 0 [] false v hi
      (fun j hj => by simpa using hbelow j hj) (by simpa using hv) hge
    simpa using this
  · have := sampleGo_retain_iff n expr hp codomain_limit 0 [] false
    simpa using this

set_option maxRecDepth 8192 in
/-- Witness for C2: the complete rule `n != 1` (as the function
`i ↦ if i = 1 then 1 else 0`) retains its preimage map over the full
sample. -/
theorem check_plurals_sampling_spec_witness :
    (samplingLoop 2 (fun i => Except.ok (if i = 1 then 1 else 0)) none false).2.isSome
      = true :=
  (check_plurals_sampling_spec 2 (fun i => Except.ok (if i = 1 then 1 else 0))
    false).2.2.mpr (by decide)

/-- C6: an arithmetic error (overflow or division by zero) while sampling
stops the loop at the failing index with exactly one arithmetic-error
finding carrying that index, and the loop returns normally (the exception
is caught, so checking continues); the declaration
`"nplurals=2; plural=n/0;"` parses to division by the literal 0 and
reports the error at the first sampled index 0. -/
theorem check_plurals_arith_error_spec :
    (∀ (n : Nat) (expr : Nat → Except ArithErr Int) (hp : Bool) (i : Nat) (e : ArithErr),
        i < 200 → (∀ j, j < i → okLt n (expr j) = true) → expr i = .error e →
        samplingLoop n expr none hp = ([.arithmeticError hp e i], none))
  ∧ Gettext.parse_plural_forms Gettext.parse_plural_expression
      "nplurals=2; plural=n/0;".toList
      = some (2, Gettext.PyExpr.div Gettext.PyExpr.var (Gettext.PyExpr.lit 0))
  ∧ (∀ hp : Bool,
      samplingLoop 2
        (fun i => (Gettext.PyExpr.div Gettext.PyExpr.var (Gettext.PyExpr.lit 0)).eval i)
        none hp
      = ([.arithmeticError hp .divByZero 0], none)) := by
  refine ⟨?_, rfl, fun hp => rfl⟩
  intro n expr hp i e hi hbelow hv
  have := sampleGo_error_stop n expr hp i codomain_limit 0 [] false e hi
    (fun j hj => by simpa using hbelow j hj) (by simpa using hv)
  simpa using this

/-- Witness for C6: the division-by-zero report at index 0, obtained from
the general clause of the theorem at the expression of
`"nplurals=2; plural=n/0;"`. -/
theorem check_plurals_arith_error_spec_witness :
    samplingLoop 2
      (fun i => (Gettext.PyExpr.div Gettext.PyExpr.var (Gettext.PyExpr.lit 0)).eval i)
      none true
    = ([.arithmeticError true .divByZero 0], none) :=
  check_plurals_arith_error_spec.1 2
    (fun i => (Gettext.PyExpr.div Gettext.PyExpr.var (Gettext.PyExpr.lit 0)).eval i)
    true 0 .divByZero (by decide) (fun j hj => absurd hj (Nat.not_lt_zero j)) rfl

/-- C3 (refuting): when `Expression.codomain()` returns `None`, the
codomain section of this source reads the never-assigned local
`uncov_rngs` (its initialization sits inside the
`if codomain is not None:` branch) and `check_plurals` raises
`UnboundLocalError` instead of completing with findings — for every
sampling outcome, locally-correct reference, severity variant and
period. -/
theorem check_plurals_codomain_none_crash (n : Nat)
    (expr : Nat → Except ArithErr Int) (lc : Option (Nat → Except ArithErr Int))
    (hp : Bool) (period : Option (Nat × Nat)) :
    checkPluralsCore n expr lc hp none period = .error .unboundLocalError := by
  have hpost : postSampling n hp none period (samplingLoop n expr lc hp).2
      = .error .unboundLocalError := rfl
  unfold checkPluralsCore
  rw [hpost]

theorem samplingLoop_no_range (n : Nat) (expr : Nat → Except ArithErr Int)
    (lc : Option (Nat → Except ArithErr Int)) (hp : Bool) :
    ((samplingLoop n expr lc hp).1).countP isRangeFinding = 0 :=
  sampleGo_no_range n expr lc hp codomain_limit 0 [] false

theorem countP_range_map (hp : Bool) (u2 : List (Int × Int)) :
    (u2.map (fun r => PluralFinding.codomainRange hp r.1 r.2)).countP isRangeFinding
      = u2.length := by
  induction u2 with
  | nil => rfl
  | cons r rs ih => simp [List.countP_cons, isRangeFinding, ih]

/-- C9: whenever the analysis returns normally, the exposed preimage map
is present exactly when sampling completed (its own retention) and no
uncovered-range codomain finding was reported afterwards; any reported
range, from the static bound or the neighbor-gap heuristic, resets it to
absent. -/
theorem check_plurals_preimage_iff (n : Nat) (expr : Nat → Except ArithErr Int)
    (lc : Option (Nat → Except ArithErr Int)) (hp : Bool)
    (codomain : Option (Int × Int)) (period : Option (Nat × Nat))
    (fs : List PluralFinding) (pim : Option Pim)
    (h : checkPluralsCore n expr lc hp codomain period = .ok (fs, pim)) :
    pim.isSome = true
      ↔ ((samplingLoop n expr lc hp).2.isSome = true
          ∧ fs.countP isRangeFinding = 0) := by
  unfold checkPluralsCore at h
  cases hps : postSampling n hp codomain period (samplingLoop n expr lc hp).2 with
  | error e =>
    rw [hps] at h
    exact Option.noConfusion (congrArg (fun x => match x with
      | .ok _ => (none : Option Unit)
      | .error _ => some ()) h)
  | ok pr =>
    obtain ⟨fs2, pim2⟩ := pr
    rw [hps] at h
    simp only [] at h
    injection h with h
    injection h with hfs hpim
    subst hfs
    subst hpim
    unfold postSampling at hps
    cases codomain with
    | none => exact Except.noConfusion hps
    | some xy =>
      obtain ⟨x, y⟩ := xy
      simp only [] at hps
      injection hps with hps
      injection hps with hfs2 hpim2
      obtain ⟨u2, hfs2', hpim2'⟩ : ∃ u2 : List (Int × Int),
          fs2 = u2.map (fun r => PluralFinding.codomainRange hp r.1 r.2)
          ∧ pim2 = if u2.isEmpty then (samplingLoop n expr lc hp).2 else none :=
        ⟨_, hfs2.symm, hpim2.symm⟩
      subst hfs2'
      subst hpim2'
      rw [List.countP_append, samplingLoop_no_range n expr lc hp, Nat.zero_add,
        countP_range_map hp u2]
      cases u2 with
      | nil => simp
      | cons r rs => simp

set_option maxRecDepth 8192 in
/-- Witness for C9: a complete two-form rule with exact static codomain
`(0, 1)` reports no range and keeps its preimage map, via the theorem. -/
theorem check_plurals_preimage_iff_witness :
    ((samplingLoop 2 (fun i => Except.ok (if i = 1 then 1 else 0)) none false).2).isSome
      = true :=
  (check_plurals_preimage_iff 2 (fun i => Except.ok (if i = 1 then 1 else 0)) none false
    (some (0, 1)) none _ _ rfl).mpr ⟨rfl, rfl⟩

end Check

namespace Flags

theorem strLe_refl (a : List Char) : strLe a a = true :=
  (strLe_total a a).elim id id

theorem tryFormatPrefixes_some {keys : List (List Char)} {flag : List Char}
    {prs : List FPrefix} {pr : FPrefix} {fmt : List Char}
    (h : tryFormatPrefixes keys flag prs = some (pr, fmt)) :
    (prefixStr pr).isPrefixOf flag = true ∧
      fmt = stripFmt flag (prefixStr pr) ∧ keys.contains fmt = true := by
  induction prs with
  | nil => exact Option.noConfusion h
  | cons p ps ih =>
    unfold tryFormatPrefixes at h
    by_cases hp : (prefixStr p).isPrefixOf flag = true
    · rw [if_pos hp] at h
      by_cases hc : keys.contains (stripFmt flag (prefixStr p)) = true
      · rw [if_pos hc] at h
        injection h with h'
        rw [Prod.mk.injEq] at h'
        obtain ⟨rfl, rfl⟩ := h'
        exact ⟨hp, rfl, hc⟩
      · rw [if_neg hc] at h
        exact ih h
    · rw [if_neg hp] at h
      exact ih h

theorem classifyFormatFlag_some {sf : StringFormats} {flag : List Char}
    {pr : FPrefix} {fmt : List Char}
    (h : classifyFormatFlag sf flag = some (pr, fmt)) :
    ("-format".toList).isSuffixOf flag = true ∧
      (prefixStr pr).isPrefixOf flag = true := by
  unfold classifyFormatFlag at h
  by_cases hs : ("-format".toList).isSuffixOf flag = true
  · rw [if_pos hs] at h
    exact ⟨hs, (tryFormatPrefixes_some h).1⟩
  · rw [if_neg hs] at h
    exact Option.noConfusion h

/-- A format flag carrying a `no-`/`possible-`/`impossible-` qualifier
starts with `n`/`p`/`i`, hence never enters the `range:` branch. -/
theorem classify_range_prefix_false {sf : StringFormats} {flag fmt : List Char}
    {pr : FPrefix} (h : classifyFormatFlag sf flag = some (pr, fmt))
    (hpr : pr ≠ FPrefix.pos) :
    ("range:".toList).isPrefixOf flag = false := by
  have hpre := (classifyFormatFlag_some h).2
  cases pr with
  | pos => exact absurd rfl hpr
  | no =>
    obtain ⟨t, ht⟩ := List.isPrefixOf_iff_prefix.mp hpre
    rw [← ht]; rfl
  | possible =>
    obtain ⟨t, ht⟩ := List.isPrefixOf_iff_prefix.mp hpre
    rw [← ht]; rfl
  | impossible =>
    obtain ⟨t, ht⟩ := List.isPrefixOf_iff_prefix.mp hpre
    rw [← ht]; rfl

/-- A flag ending in `-format` collides with none of the literal flag
names handled by the earlier branches. -/
theorem format_flag_ne_literals {flag : List Char}
    (h : ("-format".toList).isSuffixOf flag = true) :
    flag ≠ "fuzzy".toList ∧
      ¬(flag = "wrap".toList ∨ flag = "no-wrap".toList) ∧ flag ≠ [] := by
  refine ⟨?_, ?_, ?_⟩
  · rintro rfl; exact absurd h (by decide)
  · rintro (rfl | rfl) <;> exact absurd h (by decide)
  · rintro rfl; exact absurd h (by decide)

theorem onFlagCore_format (sf : StringFormats) (mp : Bool) (st : FlagState)
    {flag : List Char} (n : Nat) {pr : FPrefix} {fmt : List Char}
    (hcls : classifyFormatFlag sf flag = some (pr, fmt))
    (hrange : ("range:".toList).isPrefixOf flag = false) :
    onFlagCore sf mp st flag n = (setFmt st pr fmt flag, n) := by
  have hsuf := (classifyFormatFlag_some hcls).1
  obtain ⟨h1, h2, _⟩ := format_flag_ne_literals hsuf
  unfold onFlagCore
  rw [if_neg h1, if_neg h2, if_neg (by rw [hrange]; simp), if_pos hsuf, hcls]

theorem onFlag_format (sf : StringFormats) (mp : Bool) (st : FlagState)
    {flag : List Char} {pr : FPrefix} {fmt : List Char}
    (hcls : classifyFormatFlag sf flag = some (pr, fmt))
    (hrange : ("range:".toList).isPrefixOf flag = false) :
    onFlag sf mp st (flag, 1) = setFmt st pr fmt flag := by
  unfold onFlag
  show (if 1 < (onFlagCore sf mp st flag 1).2 ∧ flag ≠ [] then
      addFinding (onFlagCore sf mp st flag 1).1 (.duplicateMessageFlag flag)
    else (onFlagCore sf mp st flag 1).1) = setFmt st pr fmt flag
  rw [onFlagCore_format sf mp st 1 hcls hrange]
  simp

theorem counterItems_perm {l₁ l₂ : List (List Char)} (h : l₁.Perm l₂) :
    counterItems l₁ = counterItems l₂ := by
  unfold counterItems
  rw [pySorted_eq_of_set_eq (List.nodup_dedup l₁) (List.nodup_dedup l₂)
    (fun k => by simp only [List.mem_dedup]; exact h.mem_iff)]
  refine List.map_congr_left (fun f _ => ?_)
  have hc : List.count f l₁ = List.count f l₂ := by
    simp only [List.count_eq_countP]
    exact h.countP_eq _
  rw [hc]

theorem counterItems_pair {a b : List Char} (hne : a ≠ b) :
    counterItems [a, b] =
      if strLe a b = true then [(a, 1), (b, 1)] else [(b, 1), (a, 1)] := by
  have hca : List.count a [a, b] = 1 := by simp [hne]
  have hcb : List.count b [a, b] = 1 := by simp [List.count_cons, Ne.symm hne]
  have hd : ([a, b] : List (List Char)).dedup = [a, b] := by
    rw [List.dedup_cons_of_not_mem (by simp [hne]),
      List.dedup_cons_of_not_mem (by simp), List.dedup_nil]
  unfold counterItems
  rw [hd]
  by_cases hord : strLe a b = true
  · rw [if_pos hord]
    have hs : pySorted [a, b] = [a, b] := by
      simp [pySorted, List.insertionSort, List.orderedInsert,
        if_pos (show StrLeP a b from hord)]
    rw [hs]
    simp only [List.map_cons, List.map_nil]
    rw [hca, hcb]
  · rw [if_neg hord]
    have hs : pySorted [a, b] = [b, a] := by
      simp [pySorted, List.insertionSort, List.orderedInsert,
        if_neg (show ¬ StrLeP a b from hord)]
    rw [hs]
    simp only [List.map_cons, List.map_nil]
    rw [hca, hcb]

/-- Two distinct format flags of different qualifier classes land in the
two corresponding dictionaries, in either processing order. -/
theorem flagLoopState_pair (sf : StringFormats) (mp : Bool)
    {flags : List (List Char)} {flA flB fmtA fmtB : List Char}
    {prA prB : FPrefix}
    (hperm : flags.Perm [flA, flB])
    (hA : classifyFormatFlag sf flA = some (prA, fmtA))
    (hB : classifyFormatFlag sf flB = some (prB, fmtB))
    (hrA : ("range:".toList).isPrefixOf flA = false)
    (hrB : ("range:".toList).isPrefixOf flB = false)
    (hprne : prA ≠ prB) :
    flagLoopState sf mp flags =
      setFmt (setFmt initFlagState prA fmtA flA) prB fmtB flB := by
  have hne : flA ≠ flB := by
    rintro rfl
    rw [hA] at hB
    injection hB with h'
    rw [Prod.mk.injEq] at h'
    exact hprne h'.1
  unfold flagLoopState
  rw [counterItems_perm hperm, counterItems_pair hne]
  by_cases hord : strLe flA flB = true
  · rw [if_pos hord]
    simp only [List.foldl_cons, List.foldl_nil]
    rw [onFlag_format sf mp initFlagState hA hrA,
      onFlag_format sf mp (setFmt initFlagState prA fmtA flA) hB hrB]
  · rw [if_neg hord]
    simp only [List.foldl_cons, List.foldl_nil]
    rw [onFlag_format sf mp initFlagState hB hrB,
      onFlag_format sf mp (setFmt initFlagState prB fmtB flB) hA hrA]
    cases prA <;> cases prB <;> first | exact absurd rfl hprne | rfl

theorem rangeBlock_nil : rangeBlock [] = [] := rfl

theorem positivePairFindings_single (sf : StringFormats) (fmt fl : List Char) :
    positivePairFindings sf [(fmt, fl)] = [] := by
  simp [positivePairFindings, sortedItems, List.insertionSort, List.orderedInsert,
    concatMap, List.filterMap_cons, strLe_refl]

theorem pairFindings_single (fmt x y : List Char) :
    pairFindings [(fmt, x)] [(fmt, y)] =
      [FlagFinding.conflictingMessageFlags x y] := by
  simp [pairFindings, dictKeys, dictGet, pySorted, List.insertionSort,
    List.orderedInsert]

theorem pairFindings_nil_left (d : List (List Char × List Char)) :
    pairFindings [] d = [] := rfl

theorem pairFindings_nil_right (d : List (List Char × List Char)) :
    pairFindings d [] = [] := by
  simp [pairFindings, dictKeys, pySorted, List.insertionSort]

theorem redundantFindings_nil_right (d : List (List Char × List Char)) :
    redundantFindings d [] = [] := by
  simp [redundantFindings, dictKeys, pySorted, List.insertionSort]

theorem redundantFindings_single (fmt x y : List Char) :
    redundantFindings [(fmt, x)] [(fmt, y)] =
      [FlagFinding.redundantMessageFlag y x] := by
  simp [redundantFindings, dictKeys, dictGet, pySorted, List.insertionSort,
    List.orderedInsert]

/-- C7: a message carrying both a positive format flag and the `no-` or
`impossible-` qualified flag of the same dialect yields exactly one
conflicting-message-flags finding, namely for that pair; a positive flag
together with the `possible-` qualified flag of the same dialect yields
the redundant-message-flag finding for that pair and no conflict. -/
theorem check_message_flags_conflict_spec
    (sf : StringFormats) (mp : Bool) (fmt flPos flNeg : List Char)
    (flags : List (List Char)) (hperm : flags.Perm [flPos, flNeg])
    (hpos : classifyFormatFlag sf flPos = some (FPrefix.pos, fmt))
    (hrange : ("range:".toList).isPrefixOf flPos = false) :
    (classifyFormatFlag sf flNeg = some (FPrefix.no, fmt) ∨
        classifyFormatFlag sf flNeg = some (FPrefix.impossible, fmt) →
      (check_message_flags sf mp flags).filter isConflictFinding
        = [FlagFinding.conflictingMessageFlags flPos flNeg]) ∧
    (classifyFormatFlag sf flNeg = some (FPrefix.possible, fmt) →
      (check_message_flags sf mp flags).filter isRedundantFinding
        = [FlagFinding.redundantMessageFlag flNeg flPos] ∧
      (check_message_flags sf mp flags).filter isConflictFinding = []) := by
  constructor
  · rintro (hneg | hneg)
    · have hrneg := classify_range_prefix_false hneg (fun h => FPrefix.noConfusion h)
      have hstate : flagLoopState sf mp flags =
          ⟨false, none, [(fmt, flPos)], [(fmt, flNeg)], [], [], [], []⟩ :=
        flagLoopState_pair sf mp hperm hpos hneg hrange hrneg
          (fun h => FPrefix.noConfusion h)
      simp [check_message_flags, hstate, rangeBlock_nil, positivePairFindings_single,
        pairFindings_single, pairFindings_nil_left, pairFindings_nil_right,
        redundantFindings_nil_right, isConflictFinding]
    · have hrneg := classify_range_prefix_false hneg (fun h => FPrefix.noConfusion h)
      have hstate : flagLoopState sf mp flags =
          ⟨false, none, [(fmt, flPos)], [], [], [(fmt, flNeg)], [], []⟩ :=
        flagLoopState_pair sf mp hperm hpos hneg hrange hrneg
          (fun h => FPrefix.noConfusion h)
      simp [check_message_flags, hstate, rangeBlock_nil, positivePairFindings_single,
        pairFindings_single, pairFindings_nil_left, pairFindings_nil_right,
        redundantFindings_nil_right, isConflictFinding]
  · intro hneg
    have hrneg := classify_range_prefix_false hneg (fun h => FPrefix.noConfusion h)
    have hstate : flagLoopState sf mp flags =
        ⟨false, none, [(fmt, flPos)], [], [(fmt, flNeg)], [], [], []⟩ :=
      flagLoopState_pair sf mp hperm hpos hneg hrange hrneg
        (fun h => FPrefix.noConfusion h)
    constructor
    · simp [check_message_flags, hstate, rangeBlock_nil, positivePairFindings_single,
        pairFindings_nil_left, pairFindings_nil_right, redundantFindings_single,
        isRedundantFinding]
    · simp [check_message_flags, hstate, rangeBlock_nil, positivePairFindings_single,
        pairFindings_nil_left, pairFindings_nil_right, redundantFindings_single,
        isConflictFinding]

/-- Concrete instances of the conflict/redundancy behaviour on the flag
lists `["c-format", "no-c-format"]` and `["c-format", "possible-c-format"]`. -/
theorem check_message_flags_conflict_spec_witness :
    (check_message_flags stringFormatsC false
        ["c-format".toList, "no-c-format".toList]).filter isConflictFinding
      = [FlagFinding.conflictingMessageFlags "c-format".toList "no-c-format".toList] ∧
    (check_message_flags stringFormatsC false
        ["c-format".toList, "possible-c-format".toList]).filter isRedundantFinding
      = [FlagFinding.redundantMessageFlag "possible-c-format".toList "c-format".toList] ∧
    (check_message_flags stringFormatsC false
        ["c-format".toList, "possible-c-format".toList]).filter isConflictFinding
      = [] :=
  ⟨(check_message_flags_conflict_spec stringFormatsC false "c".toList "c-format".toList
      "no-c-format".toList ["c-format".toList, "no-c-format".toList]
      (List.Perm.refl _) rfl rfl).1 (Or.inl rfl),
   ((check_message_flags_conflict_spec stringFormatsC false "c".toList "c-format".toList
      "possible-c-format".toList ["c-format".toList, "possible-c-format".toList]
      (List.Perm.refl _) rfl rfl).2 rfl).1,
   ((check_message_flags_conflict_spec stringFormatsC false "c".toList "c-format".toList
      "possible-c-format".toList ["c-format".toList, "possible-c-format".toList]
      (List.Perm.refl _) rfl rfl).2 rfl).2⟩

end Flags

end I18nspector
